import Mathlib

/-!
Verification development for the AuroraTorrent BitTorrent engine
(crates/engine). Each Rust function relevant to the examined claims is
shallowly embedded as an executable Lean definition over `List Nat`
byte strings (each element a byte value) and plain `Nat`/`Int`
arithmetic; machine-integer overflow checks of the source are kept as
explicit bounds (`2^63`, `2^64`).
-/

set_option maxHeartbeats 1000000

namespace Bencode

/-- Errors of the bencode codec, mirroring `BencodeError` in
`crates/engine/src/bencode.rs`. -/
inductive BErr where
  | unexpectedEof
  | invalidInteger
  | invalidStringLength
  | invalidFormat (pos : Nat)
  | expectedStringKey
deriving DecidableEq

/-- Bencode values, mirroring `BencodeValue` in `bencode.rs`.  The Rust
`Dict` is a `BTreeMap<Vec<u8>, BencodeValue>`; it is modelled as an
association list that the parser keeps sorted by key (byte-lexicographic)
with distinct keys, exactly the order `BTreeMap` iterates in. -/
inductive BencodeValue where
  | int (n : Int)
  | str (s : List Nat)
  | list (items : List BencodeValue)
  | dict (entries : List (List Nat × BencodeValue))

/-- Byte-lexicographic strict order on keys, the `Ord` instance of
`Vec<u8>` that `BTreeMap` sorts by. -/
def keyLt : List Nat → List Nat → Bool
  | [], [] => false
  | [], _ :: _ => true
  | _ :: _, [] => false
  | a :: as', b :: bs' =>
    if a < b then true
    else if b < a then false
    else keyLt as' bs'

/-- `BTreeMap::insert` on the sorted association-list model: keep keys
strictly ascending, replacing the value when the key is already present. -/
def btreeInsert (k : List Nat) (v : BencodeValue) :
    List (List Nat × BencodeValue) → List (List Nat × BencodeValue)
  | [] => [(k, v)]
  | (k', v') :: rest =>
    if keyLt k k' then (k, v) :: (k', v') :: rest
    else if k = k' then (k, v) :: rest
    else (k', v') :: btreeInsert k v rest

/-- Recursion worker for `natDigits`; the fuel argument only forces
structural termination and any `fuel ≥ n` gives the mathematical
digits. -/
def natDigitsAux : Nat → Nat → List Nat
  | 0, n => [48 + n]
  | fuel + 1, n =>
    if n < 10 then [48 + n]
    else natDigitsAux fuel (n / 10) ++ [48 + n % 10]

/-- ASCII decimal digits of `n`, most significant first — the bytes
`format!` produces for a nonnegative integer. -/
def natDigits (n : Nat) : List Nat := natDigitsAux n n

/-- ASCII bytes `format!` produces for an `i64`: optional minus sign then
decimal digits. -/
def intAscii (n : Int) : List Nat :=
  if n < 0 then 45 :: natDigits n.natAbs else natDigits n.toNat

/-- Is the byte an ASCII decimal digit? -/
def isDigitB (b : Nat) : Bool := decide (48 ≤ b ∧ b ≤ 57)

/-- Numeric value of a run of ASCII digits (the accumulator loop used by
Rust's integer `FromStr`). -/
def digitsVal (l : List Nat) : Nat :=
  l.foldl (fun a b => a * 10 + (b - 48)) 0

/-- A nonempty all-digit run — what the digits part of a Rust integer
parse accepts. -/
def digitsOk (l : List Nat) : Bool := !l.isEmpty && l.all isDigitB

/-- Digits part shared by the Rust integer parses: a nonempty all-digit
run whose value stays within `bound`. -/
def digitsWithin (l : List Nat) (bound : Nat) : Option Nat :=
  if digitsOk l && decide (digitsVal l ≤ bound) then some (digitsVal l) else none

/-- Rust `i64::from_str` on raw bytes: optional `+`/`-` sign, at least one
digit, value within `i64`.  Invalid UTF-8 input fails just like a
non-numeric string, so bytes ≥ 128 simply fail the digit test. -/
def parseI64 (l : List Nat) : Option Int :=
  if l.head? = some 43 then (digitsWithin l.tail (2 ^ 63 - 1)).map (fun v => (v : Int))
  else if l.head? = some 45 then (digitsWithin l.tail (2 ^ 63)).map (fun v => -(v : Int))
  else (digitsWithin l (2 ^ 63 - 1)).map (fun v => (v : Int))

/-- Rust `usize::from_str` on raw bytes (64-bit): optional `+`, digits,
value below `2^64`. -/
def parseUsize (l : List Nat) : Option Nat :=
  if l.head? = some 43 then digitsWithin l.tail (2 ^ 64 - 1)
  else digitsWithin l (2 ^ 64 - 1)

/-- Index of the first occurrence of byte `c`, as
`data.iter().position(|&b| b == c)`. -/
def findE (c : Nat) : List Nat → Option Nat
  | [] => none
  | b :: tl => if b = c then some 0 else (findE c tl).map (· + 1)

/-- `BencodeValue::parse_integer`: find the first `e` (byte 101), parse
`data[1..end]` as an `i64`, consume `end + 1` bytes. -/
def parseIntegerB (data : List Nat) : Except BErr (BencodeValue × Nat) :=
  match findE 101 data with
  | none => .error .unexpectedEof
  | some e =>
    match parseI64 ((data.take e).drop 1) with
    | none => .error .invalidInteger
    | some n => .ok (.int n, e + 1)

/-- `BencodeValue::parse_string`: find the first `:` (byte 58), parse the
length prefix as `usize`, take that many bytes, consume through the end of
the string. -/
def parseStringB (data : List Nat) : Except BErr (BencodeValue × Nat) :=
  match findE 58 data with
  | none => .error .invalidStringLength
  | some colon =>
    match parseUsize (data.take colon) with
    | none => .error .invalidStringLength
    | some len =>
      if colon + 1 + len > data.length then .error .unexpectedEof
      else .ok (.str ((data.drop (colon + 1)).take len), colon + 1 + len)

mutual

/-- `BencodeValue::parse`, returning the value and the bytes consumed.
Dispatch on the first byte exactly as the source: `i` → integer, `l` →
list, `d` → dict, digit → string, otherwise `InvalidFormat(0)`; empty
input is `UnexpectedEof`.  The `fuel` argument only forces structural
termination: the recursion strictly decreases the measure
`2·length (+1 inside a loop)`, so any fuel above `2·data.length` is never
exhausted (the top-level `parse` below supplies one). -/
def parseValF : Nat → List Nat → Except BErr (BencodeValue × Nat)
  | 0, _ => .error .unexpectedEof
  | _ + 1, [] => .error .unexpectedEof
  | fuel + 1, b :: tl =>
    if b = 105 then parseIntegerB (b :: tl)
    else if b = 108 then
      match parseItemsF fuel tl with
      | .error e => .error e
      | .ok (items, c) => .ok (.list items, 1 + c + 1)
    else if b = 100 then
      match parseEntriesF fuel tl [] with
      | .error e => .error e
      | .ok (entries, c) => .ok (.dict entries, 1 + c + 1)
    else if 48 ≤ b ∧ b ≤ 57 then parseStringB (b :: tl)
    else .error (.invalidFormat 0)

/-- The element loop of `parse_list`: scan until the terminating `e`
(byte 101), parsing one value per step; running out of input is
`UnexpectedEof`.  Returns the items and the bytes consumed before the
`e`. -/
def parseItemsF : Nat → List Nat → Except BErr (List BencodeValue × Nat)
  | 0, _ => .error .unexpectedEof
  | _ + 1, [] => .error .unexpectedEof
  | fuel + 1, b :: tl =>
    if b = 101 then .ok ([], 0)
    else
      match parseValF fuel (b :: tl) with
      | .error e => .error e
      | .ok (v, c) =>
        match parseItemsF fuel ((b :: tl).drop c) with
        | .error e => .error e
        | .ok (vs, c2) => .ok (v :: vs, c + c2)

/-- The entry loop of `parse_dict`: parse a key (which must be a string),
then a value, insert into the `BTreeMap` model, until the terminating `e`;
running out of input is `UnexpectedEof`. -/
def parseEntriesF : Nat → List Nat → List (List Nat × BencodeValue) →
    Except BErr (List (List Nat × BencodeValue) × Nat)
  | 0, _, _ => .error .unexpectedEof
  | _ + 1, [], _ => .error .unexpectedEof
  | fuel + 1, b :: tl, acc =>
    if b = 101 then .ok (acc, 0)
    else
      match parseValF fuel (b :: tl) with
      | .error e => .error e
      | .ok (k, ck) =>
        match k with
        | .str ks =>
          match parseValF fuel ((b :: tl).drop ck) with
          | .error e => .error e
          | .ok (v, cv) =>
            match parseEntriesF fuel ((b :: tl).drop (ck + cv)) (btreeInsert ks v acc) with
            | .error e => .error e
            | .ok (entries, c2) => .ok (entries, ck + cv + c2)
        | _ => .error .expectedStringKey

end

/-- `BencodeValue::parse` as in the source: the value and the number of
bytes consumed. -/
def parse (data : List Nat) : Except BErr (BencodeValue × Nat) :=
  parseValF (2 * data.length + 1) data

mutual

/-- `BencodeValue::encode`. -/
def encode : BencodeValue → List Nat
  | .int n => 105 :: intAscii n ++ [101]
  | .str s => natDigits s.length ++ 58 :: s
  | .list items => 108 :: encodeItems items ++ [101]
  | .dict es => 100 :: encodeEntries es ++ [101]

/-- Concatenated encodings of list items. -/
def encodeItems : List BencodeValue → List Nat
  | [] => []
  | v :: tl => encode v ++ encodeItems tl

/-- Concatenated `<key-as-string><value>` encodings of dictionary
entries, in the association list's (= `BTreeMap` iteration) order. -/
def encodeEntries : List (List Nat × BencodeValue) → List Nat
  | [] => []
  | (k, v) :: tl => (natDigits k.length ++ 58 :: k) ++ encode v ++ encodeEntries tl

end

/-- Keys of an association list are pairwise strictly ascending in
`keyLt` — the invariant `BTreeMap` iteration guarantees. -/
def keysAscB : List (List Nat × BencodeValue) → Bool
  | [] => true
  | (k, _) :: tl => tl.all (fun e => keyLt k e.1) && keysAscB tl

mutual

/-- The values representable by the Rust types: every integer fits in
`i64`, every string and dictionary-key length fits in `usize`, and every
dictionary iterates in strictly ascending key order (`BTreeMap`). -/
def valOk : BencodeValue → Bool
  | .int n => decide (-(2 ^ 63 : Int) ≤ n ∧ n < 2 ^ 63)
  | .str s => decide (s.length < 2 ^ 64)
  | .list items => itemsOk items
  | .dict es => keysAscB es && entriesOk es

/-- `valOk` over list items. -/
def itemsOk : List BencodeValue → Bool
  | [] => true
  | v :: tl => valOk v && itemsOk tl

/-- `valOk` over dictionary entries (including the key-length bound). -/
def entriesOk : List (List Nat × BencodeValue) → Bool
  | [] => true
  | (k, v) :: tl => decide (k.length < 2 ^ 64) && valOk v && entriesOk tl

end

/-- The left fold of `BTreeMap::insert` over parsed entries, in parse
order — what `parse_dict`'s loop accumulates. -/
def foldIns (acc : List (List Nat × BencodeValue)) (es : List (List Nat × BencodeValue)) :
    List (List Nat × BencodeValue) :=
  es.foldl (fun a kv => btreeInsert kv.1 kv.2 a) acc

theorem natDigitsAux_mem {fuel n : Nat} (h : n ≤ fuel ∨ n < 10) :
    ∀ b ∈ natDigitsAux fuel n, 48 ≤ b ∧ b ≤ 57 := by
  induction fuel generalizing n with
  | zero =>
    intro b hb
    have : n < 10 := by omega
    simp only [natDigitsAux, List.mem_singleton] at hb
    omega
  | succ fuel ih =>
    intro b hb
    simp only [natDigitsAux] at hb
    by_cases h10 : n < 10
    · rw [if_pos h10] at hb; simp at hb; omega
    · rw [if_neg h10] at hb
      rcases List.mem_append.mp hb with h1 | h2
      · exact ih (Or.inl (by
          have : n / 10 < n := Nat.div_lt_self (by omega) (by norm_num)
          omega)) b h1
      · have : n % 10 < 10 := Nat.mod_lt _ (by norm_num)
        simp at h2; omega

theorem natDigits_mem {n : Nat} : ∀ b ∈ natDigits n, 48 ≤ b ∧ b ≤ 57 :=
  natDigitsAux_mem (Or.inl le_rfl)

theorem natDigitsAux_ne_nil {fuel n : Nat} : natDigitsAux fuel n ≠ [] := by
  cases fuel with
  | zero => simp [natDigitsAux]
  | succ fuel =>
    simp only [natDigitsAux]
    by_cases h10 : n < 10
    · simp [h10]
    · rw [if_neg h10]
      simp

theorem natDigits_ne_nil {n : Nat} : natDigits n ≠ [] := natDigitsAux_ne_nil

theorem digitsVal_append_one (l : List Nat) (d : Nat) :
    digitsVal (l ++ [d]) = digitsVal l * 10 + (d - 48) := by
  simp [digitsVal, List.foldl_append]

theorem digitsVal_natDigitsAux {fuel n : Nat} (h : n ≤ fuel ∨ n < 10) :
    digitsVal (natDigitsAux fuel n) = n := by
  induction fuel generalizing n with
  | zero =>
    have : n < 10 := by omega
    simp [natDigitsAux, digitsVal]
  | succ fuel ih =>
    simp only [natDigitsAux]
    by_cases h10 : n < 10
    · simp [h10, digitsVal]
    · rw [if_neg h10, digitsVal_append_one]
      rw [ih (Or.inl (by
        have : n / 10 < n := Nat.div_lt_self (by omega) (by norm_num)
        omega))]
      omega

theorem digitsVal_natDigits (n : Nat) : digitsVal (natDigits n) = n :=
  digitsVal_natDigitsAux (Or.inl le_rfl)

theorem digitsOk_natDigits (n : Nat) : digitsOk (natDigits n) = true := by
  have h1 := @natDigits_ne_nil n
  have h2 := @natDigits_mem n
  simp only [digitsOk, Bool.and_eq_true, List.all_eq_true]
  constructor
  · simpa using h1
  · intro b hb
    have := h2 b hb
    simp [isDigitB]; omega

theorem natDigits_cons (n : Nat) :
    ∃ b tl, natDigits n = b :: tl ∧ 48 ≤ b ∧ b ≤ 57 := by
  rcases List.exists_cons_of_ne_nil (@natDigits_ne_nil n) with ⟨b, tl, hE⟩
  have hb := natDigits_mem b (hE ▸ List.mem_cons_self b tl)
  exact ⟨b, tl, hE, hb.1, hb.2⟩

theorem findE_append_cons {c : Nat} (l r : List Nat) (h : c ∉ l) :
    findE c (l ++ c :: r) = some l.length := by
  induction l with
  | nil => simp [findE]
  | cons b tl ih =>
    have hb : b ≠ c := fun hbc => h (hbc ▸ List.mem_cons_self b tl)
    simp only [List.cons_append, findE, if_neg hb]
    simp [ih (fun hm => h (List.mem_cons_of_mem b hm))]

theorem parseUsize_natDigits {n : Nat} (h : n ≤ 2 ^ 64 - 1) :
    parseUsize (natDigits n) = some n := by
  rcases natDigits_cons n with ⟨b, tl, hE, h48, h57⟩
  have hc : (digitsOk (natDigits n) && decide (digitsVal (natDigits n) ≤ 2 ^ 64 - 1)) = true := by
    rw [digitsOk_natDigits, digitsVal_natDigits]; simp; omega
  rw [parseUsize, hE, if_neg (by simp; omega), ← hE, digitsWithin, if_pos hc,
    digitsVal_natDigits]

theorem parseI64_natDigits {n : Nat} (h : n ≤ 2 ^ 63 - 1) :
    parseI64 (natDigits n) = some (n : Int) := by
  rcases natDigits_cons n with ⟨b, tl, hE, h48, h57⟩
  have hc : (digitsOk (natDigits n) && decide (digitsVal (natDigits n) ≤ 2 ^ 63 - 1)) = true := by
    rw [digitsOk_natDigits, digitsVal_natDigits]; simp; omega
  rw [parseI64, hE, if_neg (by simp; omega), if_neg (by simp; omega), ← hE, digitsWithin,
    if_pos hc, digitsVal_natDigits]
  simp

theorem parseI64_intAscii {n : Int} (h1 : -(2 ^ 63) ≤ n) (h2 : n < 2 ^ 63) :
    parseI64 (intAscii n) = some n := by
  by_cases hn : n < 0
  · rw [intAscii, if_pos hn, parseI64]
    rw [if_neg (by simp), if_pos (by simp)]
    have hc : (digitsOk (natDigits n.natAbs) && decide ((n.natAbs : Nat) ≤ 2 ^ 63)) = true := by
      rw [digitsOk_natDigits]; simp; omega
    have habs : ((n.natAbs : Nat) : Int) = -n := by omega
    simp only [List.tail_cons, digitsWithin, digitsVal_natDigits, if_pos hc]
    simp [habs]
  · rw [intAscii, if_neg hn, parseI64_natDigits (by omega)]
    congr 1
    omega

theorem intAscii_not_e {n : Int} : 101 ∉ intAscii n := by
  intro hmem
  rw [intAscii] at hmem
  by_cases hn : n < 0
  · rw [if_pos hn] at hmem
    rcases List.mem_cons.mp hmem with h | h
    · omega
    · have := natDigits_mem 101 h; omega
  · rw [if_neg hn] at hmem
    have := natDigits_mem 101 hmem; omega

theorem natDigits_not_colon {n : Nat} : 58 ∉ natDigits n := by
  intro hmem
  have := natDigits_mem 58 hmem; omega

theorem encode_shape (v : BencodeValue) :
    ∃ b tl, encode v = b :: tl ∧ b ≠ 101 := by
  cases v with
  | int n => exact ⟨105, _, rfl, by omega⟩
  | str s =>
    rcases natDigits_cons s.length with ⟨b, tl, hE, h48, h57⟩
    refine ⟨b, tl ++ 58 :: s, ?_, by omega⟩
    simp [encode, hE]
  | list items => exact ⟨108, _, rfl, by omega⟩
  | dict es => exact ⟨100, _, rfl, by omega⟩

theorem encode_length_pos (v : BencodeValue) : 0 < (encode v).length := by
  rcases encode_shape v with ⟨b, tl, hE, _⟩
  simp [hE]

theorem keyLt_irrefl (l : List Nat) : keyLt l l = false := by
  induction l with
  | nil => rfl
  | cons a tl ih => simp [keyLt, ih]

theorem keyLt_asymm {a b : List Nat} (h : keyLt a b = true) : keyLt b a = false := by
  induction a generalizing b with
  | nil =>
    cases b with
    | nil => simp [keyLt] at h
    | cons y ys => simp [keyLt]
  | cons x xs ih =>
    cases b with
    | nil => simp [keyLt] at h
    | cons y ys =>
      simp only [keyLt] at h ⊢
      by_cases hxy : x < y
      · rw [if_neg (by omega), if_pos hxy]
      · rw [if_neg hxy] at h
        by_cases hyx : y < x
        · rw [if_pos hyx] at h; exact absurd h (by simp)
        · rw [if_neg hyx] at h
          rw [if_neg hyx, if_neg hxy]
          exact ih h

theorem btreeInsert_append {k : List Nat} {v : BencodeValue}
    {acc : List (List Nat × BencodeValue)}
    (h : ∀ e ∈ acc, keyLt e.1 k = true) :
    btreeInsert k v acc = acc ++ [(k, v)] := by
  induction acc with
  | nil => rfl
  | cons e rest ih =>
    obtain ⟨k', v'⟩ := e
    have hk' : keyLt k' k = true := h (k', v') (List.mem_cons_self _ _)
    have hasym := keyLt_asymm hk'
    have hne : k ≠ k' := by
      intro hkk
      rw [hkk] at hk'
      rw [keyLt_irrefl] at hk'
      exact absurd hk' (by simp)
    simp only [btreeInsert, hasym]
    rw [if_neg (by simp), if_neg hne, ih (fun e he => h e (List.mem_cons_of_mem _ he))]
    simp

theorem keysAsc_pairwise {es : List (List Nat × BencodeValue)}
    (h : keysAscB es = true) :
    List.Pairwise (fun a b => keyLt a.1 b.1 = true) es := by
  induction es with
  | nil => exact List.Pairwise.nil
  | cons e tl ih =>
    obtain ⟨k, v⟩ := e
    simp only [keysAscB, Bool.and_eq_true, List.all_eq_true] at h
    exact List.Pairwise.cons (fun b hb => h.1 b hb) (ih h.2)

theorem foldIns_eq_append {es acc : List (List Nat × BencodeValue)}
    (h : List.Pairwise (fun a b => keyLt a.1 b.1 = true) (acc ++ es)) :
    foldIns acc es = acc ++ es := by
  induction es generalizing acc with
  | nil => simp [foldIns]
  | cons e tl ih =>
    obtain ⟨k, v⟩ := e
    have hins : btreeInsert k v acc = acc ++ [(k, v)] := by
      apply btreeInsert_append
      intro a ha
      exact (List.pairwise_append.mp h).2.2 a ha (k, v) (List.mem_cons_self _ _)
    show foldIns (btreeInsert k v acc) tl = acc ++ (k, v) :: tl
    rw [hins]
    have h' : List.Pairwise (fun a b => keyLt a.1 b.1 = true) ((acc ++ [(k, v)]) ++ tl) := by
      rw [List.append_assoc, List.singleton_append]; exact h
    rw [ih h']
    simp

theorem take_len_append {α : Type} (l r : List α) : (l ++ r).take l.length = l := by
  simp

theorem drop_len_append {α : Type} (l r : List α) : (l ++ r).drop l.length = r := by
  simp

mutual

/-- Parsing the encoding of a representable value consumes exactly the
encoding and returns the value, for any trailing bytes and any
sufficient fuel. -/
theorem parseValF_encode : ∀ (v : BencodeValue) (fuel : Nat) (rest : List Nat),
    valOk v = true → 2 * (encode v ++ rest).length < fuel →
    parseValF fuel (encode v ++ rest) = .ok (v, (encode v).length)
  | .int n, fuel, rest, hok, hf => by
    have harr : encode (BencodeValue.int n) ++ rest = 105 :: (intAscii n ++ 101 :: rest) := by
      simp [encode]
    cases fuel with
    | zero => exact absurd hf (Nat.not_lt_zero _)
    | succ f =>
      rw [harr]
      simp only [parseValF]
      rw [if_pos trivial]
      have hnot : (101 : Nat) ∉ 105 :: intAscii n := by
        intro hm
        rcases List.mem_cons.mp hm with h | h
        · omega
        · exact intAscii_not_e h
      have harr2 : (105 : Nat) :: (intAscii n ++ 101 :: rest) = (105 :: intAscii n) ++ 101 :: rest := by
        simp
      have hfind : findE 101 (105 :: (intAscii n ++ 101 :: rest)) = some (105 :: intAscii n).length := by
        rw [harr2, findE_append_cons _ _ hnot]
      have hbounds : -(2 ^ 63) ≤ n ∧ n < 2 ^ 63 := by
        simp only [valOk, decide_eq_true_eq] at hok
        exact hok
      have hi64 : parseI64 ((((105 : Nat) :: (intAscii n ++ 101 :: rest)).take (105 :: intAscii n).length).drop 1)
          = some n := by
        rw [harr2, take_len_append]
        simpa using parseI64_intAscii hbounds.1 hbounds.2
      rw [parseIntegerB, hfind]
      simp only [hi64]
      have hlen : (encode (BencodeValue.int n)).length = (105 :: intAscii n).length + 1 := by
        simp [encode]
      rw [hlen]
  | .str s, fuel, rest, hok, hf => by
    rcases natDigits_cons s.length with ⟨b, ndtl, hnd, h48, h57⟩
    have harr : encode (BencodeValue.str s) ++ rest = b :: (ndtl ++ 58 :: (s ++ rest)) := by
      simp [encode, hnd]
    cases fuel with
    | zero => exact absurd hf (Nat.not_lt_zero _)
    | succ f =>
      rw [harr]
      simp only [parseValF]
      rw [if_neg (by omega), if_neg (by omega), if_neg (by omega), if_pos ⟨h48, h57⟩]
      have harr2 : b :: (ndtl ++ 58 :: (s ++ rest)) = natDigits s.length ++ 58 :: (s ++ rest) := by
        simp [hnd]
      rw [harr2]
      have hfind : findE 58 (natDigits s.length ++ 58 :: (s ++ rest))
          = some (natDigits s.length).length :=
        findE_append_cons _ _ natDigits_not_colon
      have hslen : s.length < 2 ^ 64 := by
        simp only [valOk, decide_eq_true_eq] at hok
        exact hok
      have husize : parseUsize ((natDigits s.length ++ 58 :: (s ++ rest)).take (natDigits s.length).length)
          = some s.length := by
        rw [take_len_append]
        exact parseUsize_natDigits (by omega)
      rw [parseStringB, hfind]
      simp only [husize]
      rw [if_neg (by simp; omega)]
      have hdrop : (natDigits s.length ++ 58 :: (s ++ rest)).drop ((natDigits s.length).length + 1)
          = s ++ rest := by
        have : natDigits s.length ++ 58 :: (s ++ rest) = (natDigits s.length ++ [58]) ++ (s ++ rest) := by
          simp
        rw [this]
        have hl : (natDigits s.length ++ [58]).length = (natDigits s.length).length + 1 := by simp
        rw [← hl, drop_len_append]
      have hval : ((natDigits s.length ++ 58 :: (s ++ rest)).drop ((natDigits s.length).length + 1)).take s.length = s := by
        rw [hdrop, take_len_append]
      rw [hval]
      have hlen : (encode (BencodeValue.str s)).length = (natDigits s.length).length + 1 + s.length := by
        simp [encode]
        omega
      rw [hlen]
  | .list items, fuel, rest, hok, hf => by
    have harr : encode (BencodeValue.list items) ++ rest = 108 :: (encodeItems items ++ 101 :: rest) := by
      simp [encode]
    cases fuel with
    | zero => exact absurd hf (Nat.not_lt_zero _)
    | succ f =>
      rw [harr]
      simp only [parseValF]
      rw [if_neg (by omega), if_pos trivial]
      have hok' : itemsOk items = true := hok
      have hf' : 2 * (encodeItems items ++ 101 :: rest).length + 1 < f := by
        rw [harr] at hf
        simp only [List.length_cons] at hf
        omega
      rw [parseItemsF_encode items f rest hok' hf']
      have hlen : (encode (BencodeValue.list items)).length = 1 + (encodeItems items).length + 1 := by
        simp [encode]; omega
      rw [hlen]
  | .dict es, fuel, rest, hok, hf => by
    have harr : encode (BencodeValue.dict es) ++ rest = 100 :: (encodeEntries es ++ 101 :: rest) := by
      simp [encode]
    cases fuel with
    | zero => exact absurd hf (Nat.not_lt_zero _)
    | succ f =>
      rw [harr]
      simp only [parseValF]
      rw [if_neg (by omega), if_neg (by omega), if_pos trivial]
      have hok2 : keysAscB es = true ∧ entriesOk es = true := by
        have : (keysAscB es && entriesOk es) = true := hok
        simpa using this
      have hf' : 2 * (encodeEntries es ++ 101 :: rest).length + 1 < f := by
        rw [harr] at hf
        simp only [List.length_cons] at hf
        omega
      rw [parseEntriesF_encode es f [] rest hok2.2 hf']
      have hfold : foldIns [] es = es := by
        have := @foldIns_eq_append es [] (by simpa using keysAsc_pairwise hok2.1)
        simpa using this
      rw [hfold]
      have hlen : (encode (BencodeValue.dict es)).length = 1 + (encodeEntries es).length + 1 := by
        simp [encode]; omega
      rw [hlen]
termination_by v _ _ _ _ => sizeOf v

/-- Parsing the concatenated encodings of items followed by the list
terminator returns exactly the items. -/
theorem parseItemsF_encode : ∀ (items : List BencodeValue) (fuel : Nat) (rest : List Nat),
    itemsOk items = true → 2 * (encodeItems items ++ 101 :: rest).length + 1 < fuel →
    parseItemsF fuel (encodeItems items ++ 101 :: rest) = .ok (items, (encodeItems items).length)
  | [], fuel, rest, _, hf => by
    cases fuel with
    | zero => exact absurd hf (Nat.not_lt_zero _)
    | succ f =>
      simp only [encodeItems, List.nil_append, List.length_nil, parseItemsF]
      rw [if_pos trivial]
  | v :: tl, fuel, rest, hok, hf => by
    rcases encode_shape v with ⟨b, btl, hshape, hb101⟩
    have hok2 : valOk v = true ∧ itemsOk tl = true := by
      have : (valOk v && itemsOk tl) = true := hok
      simpa using this
    have harr : encodeItems (v :: tl) ++ 101 :: rest
        = b :: (btl ++ (encodeItems tl ++ 101 :: rest)) := by
      simp [encodeItems, hshape]
    cases fuel with
    | zero => exact absurd hf (Nat.not_lt_zero _)
    | succ f =>
      rw [harr]
      simp only [parseItemsF]
      rw [if_neg hb101]
      have hback : b :: (btl ++ (encodeItems tl ++ 101 :: rest))
          = encode v ++ (encodeItems tl ++ 101 :: rest) := by
        simp [hshape]
      rw [hback]
      have hLpos : 0 < (encode v).length := encode_length_pos v
      have hlen1 : (encodeItems (v :: tl)).length = (encode v).length + (encodeItems tl).length := by
        simp [encodeItems]
      simp only [List.length_append, List.length_cons] at hf
      have hfv : 2 * (encode v ++ (encodeItems tl ++ 101 :: rest)).length < f := by
        simp only [List.length_append, List.length_cons]
        omega
      rw [parseValF_encode v f _ hok2.1 hfv]
      simp only [drop_len_append]
      have hftl : 2 * (encodeItems tl ++ 101 :: rest).length + 1 < f := by
        simp only [List.length_append, List.length_cons]
        omega
      rw [parseItemsF_encode tl f rest hok2.2 hftl]
      rw [hlen1]
termination_by items _ _ _ _ => sizeOf items

/-- Parsing the concatenated key/value encodings of entries followed by
the dict terminator folds `BTreeMap::insert` over the entries in parse
order. -/
theorem parseEntriesF_encode : ∀ (es : List (List Nat × BencodeValue)) (fuel : Nat)
    (acc : List (List Nat × BencodeValue)) (rest : List Nat),
    entriesOk es = true → 2 * (encodeEntries es ++ 101 :: rest).length + 1 < fuel →
    parseEntriesF fuel (encodeEntries es ++ 101 :: rest) acc
      = .ok (foldIns acc es, (encodeEntries es).length)
  | [], fuel, acc, rest, _, hf => by
    cases fuel with
    | zero => exact absurd hf (Nat.not_lt_zero _)
    | succ f =>
      simp only [encodeEntries, List.nil_append, List.length_nil, foldIns, List.foldl_nil,
        parseEntriesF]
      rw [if_pos trivial]
  | (k, v) :: tl, fuel, acc, rest, hok, hf => by
    rcases encode_shape (.str k) with ⟨b, btl, hshape, hb101⟩
    have hok3 : k.length < 2 ^ 64 ∧ valOk v = true ∧ entriesOk tl = true := by
      have : ((decide (k.length < 2 ^ 64) && valOk v) && entriesOk tl) = true := hok
      simpa [and_assoc] using this
    have hkeyenc : (natDigits k.length ++ 58 :: k) = encode (BencodeValue.str k) := by
      simp [encode]
    have harr : encodeEntries ((k, v) :: tl) ++ 101 :: rest
        = b :: (btl ++ (encode v ++ (encodeEntries tl ++ 101 :: rest))) := by
      simp only [encodeEntries, hkeyenc, hshape]
      simp
    cases fuel with
    | zero => exact absurd hf (Nat.not_lt_zero _)
    | succ f =>
      rw [harr]
      simp only [parseEntriesF]
      rw [if_neg hb101]
      have hback : b :: (btl ++ (encode v ++ (encodeEntries tl ++ 101 :: rest)))
          = encode (BencodeValue.str k) ++ (encode v ++ (encodeEntries tl ++ 101 :: rest)) := by
        simp [hshape]
      rw [hback]
      have hokk : valOk (BencodeValue.str k) = true := by
        simp only [valOk, decide_eq_true_eq]
        exact hok3.1
      have hKpos : 0 < (encode (BencodeValue.str k)).length := encode_length_pos _
      have hVpos : 0 < (encode v).length := encode_length_pos v
      have hlen1 : (encodeEntries ((k, v) :: tl)).length
          = (encode (BencodeValue.str k)).length + (encode v).length
            + (encodeEntries tl).length := by
        simp only [encodeEntries, hkeyenc]
        simp
        omega
      simp only [List.length_append, List.length_cons] at hf
      have hfk : 2 * (encode (BencodeValue.str k) ++ (encode v ++ (encodeEntries tl ++ 101 :: rest))).length < f := by
        simp only [List.length_append, List.length_cons]
        omega
      rw [parseValF_encode (.str k) f _ hokk hfk]
      simp only [drop_len_append]
      have hfv : 2 * (encode v ++ (encodeEntries tl ++ 101 :: rest)).length < f := by
        simp only [List.length_append, List.length_cons]
        omega
      rw [parseValF_encode v f _ hok3.2.1 hfv]
      have hdrop2 : (encode (BencodeValue.str k) ++ (encode v ++ (encodeEntries tl ++ 101 :: rest))).drop
          ((encode (BencodeValue.str k)).length + (encode v).length)
          = encodeEntries tl ++ 101 :: rest := by
        rw [← List.append_assoc, ← List.length_append, drop_len_append]
      simp only [hdrop2]
      have hftl : 2 * (encodeEntries tl ++ 101 :: rest).length + 1 < f := by
        simp only [List.length_append, List.length_cons]
        omega
      rw [parseEntriesF_encode tl f (btreeInsert k v acc) rest hok3.2.2 hftl]
      have hfold : foldIns (btreeInsert k v acc) tl = foldIns acc ((k, v) :: tl) := by
        simp [foldIns]
      rw [hfold, hlen1]
termination_by es _ _ _ _ _ => sizeOf es

end

/-- Round-trip through the top-level `parse`: the encoding of any
representable value parses back to the value, consuming the whole
encoding. -/
theorem parse_encode (v : BencodeValue) (h : valOk v = true) :
    parse (encode v) = .ok (v, (encode v).length) := by
  have h2 := parseValF_encode v (2 * (encode v).length + 1) [] h (by simp)
  rw [List.append_nil] at h2
  rw [parse]
  exact h2

/-- C3 (amended): (1) for every `BencodeValue` representable in the Rust
types (`i64` integers, `usize` lengths, sorted-key `BTreeMap` dicts),
`parse (encode v)` returns `v` with the whole encoding consumed; (2) for
every input that is the canonical encoding of such a value — canonical
decimal forms and strictly ascending distinct dictionary keys —
`encode (parse x)` returns `x` byte-for-byte with the whole input
consumed.  The word "well-formed" of the original claim must be
restricted to canonical encodings: the parser also accepts non-canonical
inputs (leading zeros, a `+` sign, negative zero, duplicate keys) and
re-encodes those differently. -/
theorem C3_bencode_roundtrip :
    (∀ v : BencodeValue, valOk v = true → parse (encode v) = .ok (v, (encode v).length)) ∧
    (∀ x : List Nat, (∃ v, valOk v = true ∧ encode v = x) →
      ∃ v, parse x = .ok (v, x.length) ∧ encode v = x) := by
  constructor
  · exact parse_encode
  · rintro x ⟨v, hok, rfl⟩
    exact ⟨v, parse_encode v hok, rfl⟩

/-- Witness for C3 at concrete inputs: the dictionary `d1:ai1ee` (key
`"a"` mapping to 1) round-trips in both directions. -/
theorem C3_bencode_roundtrip_witness :
    parse (encode (BencodeValue.dict [([97], BencodeValue.int 1)]))
      = .ok (BencodeValue.dict [([97], BencodeValue.int 1)],
          (encode (BencodeValue.dict [([97], BencodeValue.int 1)])).length) ∧
    (∃ v, parse [105, 51, 101] = .ok (v, [105, 51, 101].length) ∧ encode v = [105, 51, 101]) :=
  ⟨C3_bencode_roundtrip.1 _ (by decide),
   C3_bencode_roundtrip.2 [105, 51, 101] ⟨BencodeValue.int 3, by decide, by decide⟩⟩

/-- Counterexample to C3 as stated: the input `i03e` is accepted by the
parser (it is "well-formed" for this parser, the whole 4 bytes are
consumed, and it contains no dictionary keys, so its keys are vacuously
sorted), yet `encode (parse "i03e") = "i3e" ≠ "i03e"`. -/
theorem C3_counterexample_noncanonical :
    parse [105, 48, 51, 101] = .ok (.int 3, 4) ∧
    encode (BencodeValue.int 3) ≠ [105, 48, 51, 101] :=
  ⟨rfl, by decide⟩

end Bencode

namespace Torrent

open Bencode

/-- Byte values of an ASCII string (used to write concrete inputs
readably; all inputs below are ASCII). -/
def asciiBytes (s : String) : List Nat := s.data.map Char.toNat

/-- Errors of `TorrentMetainfo` parsing relevant here, mirroring
`TorrentError` in `crates/engine/src/torrent.rs`. -/
inductive TorrentError where
  | bencodeErr (e : BErr)
  | missingField
deriving DecidableEq

/-- The literal byte pattern `4:infod` that
`TorrentMetainfo::calculate_info_hash` searches for. -/
def infoPat : List Nat := [52, 58, 105, 110, 102, 111, 100]

/-- `data.windows(n).position(|w| w == pat)`: index of the first window
equal to `pat` (length-`n` windows only exist while enough bytes
remain). -/
def findWindow (pat : List Nat) : List Nat → Option Nat
  | [] => none
  | l@(_ :: rest) =>
    if l.take pat.length = pat then some 0 else (findWindow pat rest).map (· + 1)

/-- `TorrentMetainfo::calculate_info_hash`, up to the SHA-1 call: find
the first occurrence of the literal bytes `4:infod`, parse one bencode
value starting at the `d`, and return
`data[info_start .. info_start + consumed]` — the exact byte slice the
function feeds to the SHA-1 hasher.  (The digest is a function of this
slice, so digest comparisons reduce to slice comparisons.) -/
def calculateInfoHashSlice (data : List Nat) : Except TorrentError (List Nat) :=
  match findWindow infoPat data with
  | none => .error .missingField
  | some pos =>
    match Bencode.parse (data.drop (pos + 6)) with
    | .error e => .error (.bencodeErr e)
    | .ok (_, consumed) => .ok ((data.drop (pos + 6)).take consumed)

/-- Entry scan for `infoSliceViaParser`: starting at offset `pos` inside
the top-level dictionary's entry region, repeatedly parse a key and a
value with the bencode parser and return the byte slice the parser
consumed for the value whose key is `info`.  Fuel only bounds the number
of entries (one unit per entry suffices). -/
def infoScan : Nat → List Nat → Nat → Option (List Nat)
  | 0, _, _ => none
  | fuel + 1, data, pos =>
    if pos < data.length ∧ (data.drop pos).head? ≠ some 101 then
      match Bencode.parse (data.drop pos) with
      | .error _ => none
      | .ok (k, ck) =>
        match k with
        | .str ks =>
          match Bencode.parse (data.drop (pos + ck)) with
          | .error _ => none
          | .ok (_, cv) =>
            if ks = [105, 110, 102, 111] then some ((data.drop (pos + ck)).take cv)
            else infoScan fuel data (pos + ck + cv)
        | _ => none
    else none

/-- The byte slice of the `info` value located via the parser's
consumed-bytes output — the slice the specification requires the
info-digest to be the SHA-1 of ("the exact byte slice that the bencode
parser consumed for the `info` value").  This is the spec-side
definition for the refinement comparison with
`calculateInfoHashSlice`. -/
def infoSliceViaParser (data : List Nat) : Option (List Nat) :=
  match data.head? with
  | some 100 => infoScan data.length data 1
  | _ => none

/-- Dictionary lookup `BencodeValue::get`. -/
def bGet (v : BencodeValue) (key : List Nat) : Option BencodeValue :=
  match v with
  | .dict es => (es.find? (fun e => e.1 = key)).map (·.2)
  | _ => none

/-- Whether a byte string is ASCII (our concrete inputs are; ASCII is
valid UTF-8, so on these inputs this matches Rust's `as_str`). -/
def isAsciiStr (s : List Nat) : Bool := s.all (· < 128)

/-- Success condition of `TorrentMetainfo::from_bytes` for a single-file
torrent: the input parses as a dictionary, has an `info` dictionary, the
`4:infod` search-and-parse of `calculate_info_hash` succeeds, and the
required fields `name` (UTF-8 string; modelled for ASCII inputs),
`piece length`, `pieces` (length a multiple of 20) and `length` are
present with the right types. -/
def fromBytesOkSingle (data : List Nat) : Bool :=
  match Bencode.parse data with
  | .error _ => false
  | .ok (v, _) =>
    (match v with | .dict _ => true | _ => false) &&
    (match bGet v (asciiBytes "info") with
     | some info =>
       (match info with | .dict _ => true | _ => false) &&
       (match calculateInfoHashSlice data with | .ok _ => true | .error _ => false) &&
       (match bGet info (asciiBytes "name") with | some (.str s) => isAsciiStr s | _ => false) &&
       (match bGet info (asciiBytes "piece length") with | some (.int _) => true | _ => false) &&
       (match bGet info (asciiBytes "pieces") with
        | some (.str p) => decide (p.length % 20 = 0)
        | _ => false) &&
       (match bGet info (asciiBytes "length") with | some (.int _) => true | _ => false)
     | none => false)

/-- A legal single-file torrent whose top-level dictionary contains,
before the `info` key, a string value that itself contains the bytes
`4:infod` followed by a small well-formed dictionary. -/
def c1FailingInput : List Nat :=
  asciiBytes "d1:a14:4:infod1:xi0ee4:infod6:lengthi1e4:name4:spam12:piece lengthi1e6:pieces20:AAAAAAAAAAAAAAAAAAAAee"

/-- C1: the info-digest of `from_bytes` is not always the SHA-1 of the
byte slice the parser consumed for the `info` value.  At
`c1FailingInput` — a legal torrent accepted by `from_bytes` —
`calculate_info_hash` finds the first occurrence of the literal bytes
`4:infod` inside the string value of key `a` and hashes the 8-byte slice
`d1:xi0ee`, while the slice the parser consumes for the `info` value is
the 70-byte real info dictionary; the two slices differ, so the computed
digest is the SHA-1 of the wrong bytes. -/
theorem C1_info_hash_wrong_slice :
    fromBytesOkSingle c1FailingInput = true ∧
    calculateInfoHashSlice c1FailingInput = .ok (asciiBytes "d1:xi0ee") ∧
    infoSliceViaParser c1FailingInput
      = some (asciiBytes "d6:lengthi1e4:name4:spam12:piece lengthi1e6:pieces20:AAAAAAAAAAAAAAAAAAAAe") ∧
    asciiBytes "d1:xi0ee"
      ≠ asciiBytes "d6:lengthi1e4:name4:spam12:piece lengthi1e6:pieces20:AAAAAAAAAAAAAAAAAAAAe" :=
  ⟨rfl, rfl, rfl, by decide⟩

end Torrent

namespace Piece

/-- Standard block size, `BLOCK_SIZE` in `crates/engine/src/piece.rs`. -/
def BLOCK_SIZE : Nat := 16 * 1024

/-- A block within a piece (`BlockInfo`). -/
structure BlockInfo where
  piece : Nat
  offset : Nat
  length : Nat
deriving DecidableEq

/-- A piece being downloaded (`PieceInProgress`): the offset→data block
map (a `HashMap`, modelled as an association list) and the two
counters. -/
structure PieceInProgress where
  blocks : List (Nat × List Nat)
  expectedBlocks : Nat
  receivedBlocks : Nat
deriving DecidableEq

/-- The piece manager (`PieceManager`).  The fields `download_path`,
`name` and `files` of the source are omitted: none of the embedded
operations read them.  `in_progress` is a `HashMap` modelled as an
association list, `priority_pieces` a `HashSet` modelled as the list in
its (arbitrary) iteration order. -/
structure PieceManager where
  pieceHashes : List (List Nat)
  pieceLength : Nat
  totalSize : Nat
  numPieces : Nat
  haveBv : List Bool
  inProgress : List (Nat × PieceInProgress)
  sequential : Bool
  priorityPieces : List Nat
deriving DecidableEq

/-- `PieceManager::new`: `num_pieces = piece_hashes.len()` and an
all-false bitfield of that length. -/
def PieceManager.new (pieceHashes : List (List Nat)) (pieceLength totalSize : Nat) :
    PieceManager :=
  { pieceHashes := pieceHashes
    pieceLength := pieceLength
    totalSize := totalSize
    numPieces := pieceHashes.length
    haveBv := List.replicate pieceHashes.length false
    inProgress := []
    sequential := false
    priorityPieces := [] }

/-- `PieceManager::set_priority_pieces`: clear and refill the priority
set — no validation of the indices. -/
def setPriorityPieces (pm : PieceManager) (pieces : List Nat) : PieceManager :=
  { pm with priorityPieces := pieces }

/-- `PieceManager::set_sequential`. -/
def setSequential (pm : PieceManager) (s : Bool) : PieceManager :=
  { pm with sequential := s }

/-- `PieceManager::peer_has_piece`: MSB-first bit lookup, `false` when
the byte index is beyond the bitfield. -/
def peerHasPiece (bitfield : List Nat) (piece : Nat) : Bool :=
  match bitfield[piece / 8]? with
  | some b => decide ((b >>> (7 - piece % 8)) &&& 1 = 1)
  | none => false

/-- An index-out-of-bounds panic (the `self.have[piece as usize]`
indexing in `select_piece` has no bounds check). -/
inductive Panic where
  | outOfBounds
deriving DecidableEq

/-- `contains_key` on the in-progress map. -/
def hasKey (l : List (Nat × PieceInProgress)) (k : Nat) : Bool :=
  l.any (fun e => e.1 = k)

/-- One eligibility test of `select_piece`'s loops:
`!self.have[piece] && peer_has_piece(peer_has, piece) &&
!in_progress.contains_key(&piece)`.  `none` models the panic of the
unchecked `self.have[piece]` indexing. -/
def eligAt (pm : PieceManager) (peerHas : List Nat) (p : Nat) : Option Bool :=
  match pm.haveBv[p]? with
  | some hv => some (!hv && peerHasPiece peerHas p && !(hasKey pm.inProgress p))
  | none => none

/-- The shared shape of `select_piece`'s priority loop and sequential
loop: return the first eligible index of the candidate list, `none` when
no candidate is eligible, and propagate the indexing panic. -/
def selectScan : List Nat → PieceManager → List Nat → Except Panic (Option Nat)
  | [], _, _ => .ok none
  | p :: rest, pm, ph =>
    match eligAt pm ph p with
    | none => .error .outOfBounds
    | some true => .ok (some p)
    | some false => selectScan rest pm ph

/-- The `filter` of `select_piece`'s random branch: collect all eligible
candidates, propagating the indexing panic. -/
def availLoop : List Nat → PieceManager → List Nat → Except Panic (List Nat)
  | [], _, _ => .ok []
  | p :: rest, pm, ph =>
    match eligAt pm ph p with
    | none => .error .outOfBounds
    | some e =>
      match availLoop rest pm ph with
      | .error err => .error err
      | .ok l => .ok (if e then p :: l else l)

/-- The random pick of `select_piece`'s last branch:
`available[random % available.len()]` when `available` is nonempty,
`None` otherwise; `r` stands for the `rand::random::<usize>()` draw. -/
def randomPick (r : Nat) (avail : List Nat) : Option Nat :=
  if h : avail.length = 0 then none
  else some (avail.get ⟨r % avail.length, Nat.mod_lt _ (Nat.pos_of_ne_zero h)⟩)

/-- `PieceManager::select_piece`: priority pieces first (in the set's
iteration order), then — if none was eligible — the lowest eligible
index in sequential mode, otherwise a random eligible index. -/
def selectPiece (pm : PieceManager) (ph : List Nat) (r : Nat) : Except Panic (Option Nat) :=
  match selectScan pm.priorityPieces pm ph with
  | .error e => .error e
  | .ok (some p) => .ok (some p)
  | .ok none =>
    if pm.sequential then selectScan (List.range pm.numPieces) pm ph
    else
      match availLoop (List.range pm.numPieces) pm ph with
      | .error e => .error e
      | .ok avail => .ok (randomPick r avail)

/-- The priority list `Engine::stream_torrent` installs:
`(0..10).collect()` — regardless of the torrent's piece count. -/
def streamTorrentPriorityPieces : List Nat := List.range 10

/-- `PieceManager::piece_size`.  (In Lean `%` by zero returns the left
operand; real torrents have `piece_length > 0`, where the two agree.) -/
def pieceSize (pm : PieceManager) (pieceIdx : Nat) : Nat :=
  if pieceIdx = pm.numPieces - 1 then
    if pm.totalSize % pm.pieceLength = 0 then pm.pieceLength
    else pm.totalSize % pm.pieceLength
  else pm.pieceLength

/-- The offset loop of `PieceManager::blocks_for_piece`; each step
advances the offset by at least one byte, so fuel `pieceSz` always
suffices and only forces structural termination. -/
def blocksLoopF : Nat → Nat → Nat → Nat → List BlockInfo
  | 0, _, _, _ => []
  | fuel + 1, pieceIdx, pieceSz, offset =>
    if offset < pieceSz then
      let len := min BLOCK_SIZE (pieceSz - offset)
      ⟨pieceIdx, offset, len⟩ :: blocksLoopF fuel pieceIdx pieceSz (offset + len)
    else []

/-- `PieceManager::blocks_for_piece`. -/
def blocksForPiece (pm : PieceManager) (pieceIdx : Nat) : List BlockInfo :=
  blocksLoopF (pieceSize pm pieceIdx) pieceIdx (pieceSize pm pieceIdx) 0

/-- `PieceManager::start_piece`: insert a fresh in-progress record with
`expected_blocks = blocks.len()` and zero received blocks, and return
the blocks. -/
def startPiece (pm : PieceManager) (pieceIdx : Nat) : PieceManager × List BlockInfo :=
  let blocks := blocksForPiece pm pieceIdx
  ({ pm with
      inProgress := (pm.inProgress.filter (fun e => e.1 ≠ pieceIdx))
        ++ [(pieceIdx, ⟨[], blocks.length, 0⟩)] },
   blocks)

/-- `PieceManager::receive_block`: insert the block only when the piece
is in progress and the offset entry is vacant, bump `received_blocks`,
and report whether `received_blocks >= expected_blocks` after the
insertion; otherwise leave the state unchanged and report `false`. -/
def receiveBlock (pm : PieceManager) (pieceIdx offset : Nat) (data : List Nat) :
    PieceManager × Bool :=
  match pm.inProgress.find? (fun e => e.1 = pieceIdx) with
  | none => (pm, false)
  | some (_, prog) =>
    if prog.blocks.any (fun b => b.1 = offset) then (pm, false)
    else
      ({ pm with
          inProgress := pm.inProgress.map (fun e =>
            if e.1 = pieceIdx then
              (pieceIdx, ⟨prog.blocks ++ [(offset, data)], prog.expectedBlocks,
                prog.receivedBlocks + 1⟩)
            else e) },
       decide (prog.receivedBlocks + 1 ≥ prog.expectedBlocks))

/-- `PieceManager::cancel_piece`: drop the in-progress record. -/
def cancelPiece (pm : PieceManager) (pieceIdx : Nat) : PieceManager :=
  { pm with inProgress := pm.inProgress.filter (fun e => e.1 ≠ pieceIdx) }

/-- The invariant of an in-progress piece: `received_blocks` equals the
number of blocks in the map, and the block offsets are distinct. -/
def progressInv (prog : PieceInProgress) : Prop :=
  prog.receivedBlocks = prog.blocks.length ∧ (prog.blocks.map (·.1)).Nodup

/-- The invariant over the whole in-progress map. -/
def pmInv (pm : PieceManager) : Prop :=
  ∀ e ∈ pm.inProgress, progressInv e.2

end Piece

namespace Piece

theorem eligAt_true_bound {pm : PieceManager} {ph : List Nat} {p : Nat} {b : Bool}
    (h : eligAt pm ph p = some b) : p < pm.haveBv.length := by
  unfold eligAt at h
  cases hx : pm.haveBv[p]? with
  | none => rw [hx] at h; exact absurd h (by simp)
  | some hv => exact (List.getElem?_eq_some.mp hx).1

theorem eligAt_true_elim {pm : PieceManager} {ph : List Nat} {p : Nat}
    (h : eligAt pm ph p = some true) :
    ∃ hlt : p < pm.haveBv.length,
      pm.haveBv.get ⟨p, hlt⟩ = false ∧ peerHasPiece ph p = true ∧
      hasKey pm.inProgress p = false := by
  have hlt := eligAt_true_bound h
  refine ⟨hlt, ?_⟩
  unfold eligAt at h
  rw [List.getElem?_eq_getElem hlt] at h
  simp only [Option.some.injEq, Bool.and_eq_true, Bool.not_eq_true'] at h
  rcases h with ⟨⟨h1, h2⟩, h3⟩
  exact ⟨h1, h2, h3⟩

/-- A successful scan returning `some p` found `p` as the first eligible
candidate: the candidates before it all tested ineligible. -/
theorem selectScan_ok_some {lst : List Nat} {pm : PieceManager} {ph : List Nat} {p : Nat}
    (h : selectScan lst pm ph = .ok (some p)) :
    ∃ pre post, lst = pre ++ p :: post ∧
      (∀ q ∈ pre, eligAt pm ph q = some false) ∧ eligAt pm ph p = some true := by
  induction lst with
  | nil => simp [selectScan] at h
  | cons q rest ih =>
    unfold selectScan at h
    cases hq : eligAt pm ph q with
    | none => rw [hq] at h; exact absurd h (by simp)
    | some b =>
      rw [hq] at h
      cases b with
      | true =>
        simp only [Except.ok.injEq, Option.some.injEq] at h
        subst h
        exact ⟨[], rest, rfl, by simp, hq⟩
      | false =>
        rcases ih h with ⟨pre, post, hsplit, hpre, hp⟩
        exact ⟨q :: pre, post, by rw [hsplit]; rfl, by
          intro x hx
          rcases List.mem_cons.mp hx with hx | hx
          · subst hx; exact hq
          · exact hpre x hx, hp⟩

/-- A scan returning `none` tested every candidate ineligible. -/
theorem selectScan_ok_none {lst : List Nat} {pm : PieceManager} {ph : List Nat}
    (h : selectScan lst pm ph = .ok none) :
    ∀ q ∈ lst, eligAt pm ph q = some false := by
  induction lst with
  | nil => simp
  | cons q rest ih =>
    unfold selectScan at h
    cases hq : eligAt pm ph q with
    | none => rw [hq] at h; exact absurd h (by simp)
    | some b =>
      rw [hq] at h
      cases b with
      | true => exact absurd h (by simp)
      | false =>
        intro x hx
        rcases List.mem_cons.mp hx with hx | hx
        · subst hx; exact hq
        · exact ih h x hx

/-- Every member of the random branch's `available` list tested
eligible and came from the candidate list. -/
theorem availLoop_mem {lst : List Nat} {pm : PieceManager} {ph : List Nat} {avail : List Nat}
    (h : availLoop lst pm ph = .ok avail) :
    ∀ q ∈ avail, q ∈ lst ∧ eligAt pm ph q = some true := by
  induction lst generalizing avail with
  | nil =>
    simp only [availLoop, Except.ok.injEq] at h
    subst h; simp
  | cons q rest ih =>
    unfold availLoop at h
    cases hq : eligAt pm ph q with
    | none => rw [hq] at h; exact absurd h (by simp)
    | some e =>
      rw [hq] at h
      cases hr : availLoop rest pm ph with
      | error err => rw [hr] at h; exact absurd h (by simp)
      | ok l =>
        rw [hr] at h
        simp only [Except.ok.injEq] at h
        subst h
        intro x hx
        cases e with
        | true =>
          rcases List.mem_cons.mp (by simpa using hx) with hx' | hx'
          · subst hx'; exact ⟨List.mem_cons_self _ _, hq⟩
          · rcases ih hr x hx' with ⟨h1, h2⟩
            exact ⟨List.mem_cons_of_mem _ h1, h2⟩
        | false =>
          rcases ih hr x (by simpa using hx) with ⟨h1, h2⟩
          exact ⟨List.mem_cons_of_mem _ h1, h2⟩

/-- Scans do not panic when every candidate is in bounds. -/
theorem selectScan_total {lst : List Nat} {pm : PieceManager} {ph : List Nat}
    (h : ∀ p ∈ lst, p < pm.haveBv.length) :
    ∃ res, selectScan lst pm ph = .ok res := by
  induction lst with
  | nil => exact ⟨none, rfl⟩
  | cons q rest ih =>
    unfold selectScan
    cases hq : eligAt pm ph q with
    | none =>
      exfalso
      have hlt := h q (List.mem_cons_self _ _)
      unfold eligAt at hq
      rw [List.getElem?_eq_getElem hlt] at hq
      simp at hq
    | some b =>
      cases b with
      | true => exact ⟨some q, rfl⟩
      | false => exact ih (fun p hp => h p (List.mem_cons_of_mem _ hp))

/-- The availability filter does not panic when every candidate is in
bounds. -/
theorem availLoop_total {lst : List Nat} {pm : PieceManager} {ph : List Nat}
    (h : ∀ p ∈ lst, p < pm.haveBv.length) :
    ∃ res, availLoop lst pm ph = .ok res := by
  induction lst with
  | nil => exact ⟨[], rfl⟩
  | cons q rest ih =>
    unfold availLoop
    cases hq : eligAt pm ph q with
    | none =>
      exfalso
      have hlt := h q (List.mem_cons_self _ _)
      unfold eligAt at hq
      rw [List.getElem?_eq_getElem hlt] at hq
      simp at hq
    | some e =>
      rcases ih (fun p hp => h p (List.mem_cons_of_mem _ hp)) with ⟨l, hl⟩
      rw [hl]
      exact ⟨if e then q :: l else l, rfl⟩

end Piece

namespace Piece

theorem range_split {n p : Nat} {pre post : List Nat}
    (h : List.range n = pre ++ p :: post) : pre = List.range p := by
  have hlen : pre.length < n := by
    have h2 := congrArg List.length h
    simp at h2
    omega
  have e1 : (List.range n)[pre.length]? = some pre.length := by
    rw [List.getElem?_eq_getElem (by simpa using hlen)]
    simp
  have e2 : (pre ++ p :: post)[pre.length]? = some p := by
    rw [List.getElem?_append_right (le_refl _)]
    simp
  rw [h, e2] at e1
  have hp : p = pre.length := by simpa using e1
  have h3 : (List.range n).take pre.length = pre := by
    rw [h]
    exact Bencode.take_len_append pre (p :: post)
  rw [List.take_range] at h3
  rw [← h3, hp]
  congr 1
  omega

/-- Unfolding `select_piece` when the priority scan returned a piece. -/
theorem selectPiece_scan_some {pm : PieceManager} {ph : List Nat} {r p : Nat}
    (h0 : selectScan pm.priorityPieces pm ph = .ok (some p)) :
    selectPiece pm ph r = .ok (some p) := by
  unfold selectPiece
  rw [h0]

/-- Unfolding `select_piece` through the sequential branch. -/
theorem selectPiece_seq {pm : PieceManager} {ph : List Nat} {r : Nat}
    (h0 : selectScan pm.priorityPieces pm ph = .ok none)
    (hseq : pm.sequential = true) :
    selectPiece pm ph r = selectScan (List.range pm.numPieces) pm ph := by
  unfold selectPiece
  rw [h0]
  show (if pm.sequential then selectScan (List.range pm.numPieces) pm ph
    else match availLoop (List.range pm.numPieces) pm ph with
      | .error e => .error e
      | .ok avail => .ok (randomPick r avail)) = selectScan (List.range pm.numPieces) pm ph
  rw [hseq]
  simp

/-- Unfolding `select_piece` through the random branch. -/
theorem selectPiece_rand {pm : PieceManager} {ph : List Nat} {r : Nat} {avail : List Nat}
    (h0 : selectScan pm.priorityPieces pm ph = .ok none)
    (hseq : pm.sequential = false)
    (hav : availLoop (List.range pm.numPieces) pm ph = .ok avail) :
    selectPiece pm ph r = .ok (randomPick r avail) := by
  unfold selectPiece
  rw [h0]
  show (if pm.sequential then selectScan (List.range pm.numPieces) pm ph
    else match availLoop (List.range pm.numPieces) pm ph with
      | .error e => .error e
      | .ok avail => .ok (randomPick r avail)) = .ok (randomPick r avail)
  rw [hseq, hav]
  simp

/-- Unfolding `select_piece` when the availability filter panicked. -/
theorem selectPiece_avail_error {pm : PieceManager} {ph : List Nat} {r : Nat} {e : Panic}
    (h0 : selectScan pm.priorityPieces pm ph = .ok none)
    (hseq : pm.sequential = false)
    (hav : availLoop (List.range pm.numPieces) pm ph = .error e) :
    selectPiece pm ph r = .error e := by
  unfold selectPiece
  rw [h0]
  show (if pm.sequential then selectScan (List.range pm.numPieces) pm ph
    else match availLoop (List.range pm.numPieces) pm ph with
      | .error e => .error e
      | .ok avail => .ok (randomPick r avail)) = .error e
  rw [hseq, hav]
  simp

/-- Unfolding `select_piece` when the priority scan panicked. -/
theorem selectPiece_scan_error {pm : PieceManager} {ph : List Nat} {r : Nat} {e : Panic}
    (h0 : selectScan pm.priorityPieces pm ph = .error e) :
    selectPiece pm ph r = .error e := by
  unfold selectPiece
  rw [h0]

/-- Case analysis of a successful `select_piece`: the returned index is
eligible, and it came either from the priority set, or (with every
priority piece tested ineligible) from the sequential or random branch
over `0..num_pieces`, the sequential branch returning the lowest
eligible index. -/
theorem selectPiece_ok_some_cases {pm : PieceManager} {ph : List Nat} {r i : Nat}
    (h : selectPiece pm ph r = .ok (some i)) :
    eligAt pm ph i = some true ∧
    (i ∈ pm.priorityPieces ∨
      ((∀ p ∈ pm.priorityPieces, eligAt pm ph p = some false) ∧ i < pm.numPieces ∧
        (pm.sequential = true → ∀ j < i, eligAt pm ph j = some false))) := by
  cases hscan : selectScan pm.priorityPieces pm ph with
  | error e =>
    rw [selectPiece_scan_error hscan] at h
    exact absurd h (by simp)
  | ok o =>
    cases o with
    | some p =>
      rw [selectPiece_scan_some hscan] at h
      simp only [Except.ok.injEq, Option.some.injEq] at h
      subst h
      rcases selectScan_ok_some hscan with ⟨pre, post, hsplit, _, helig⟩
      exact ⟨helig, Or.inl (by rw [hsplit]; exact List.mem_append_right _ (List.mem_cons_self _ _))⟩
    | none =>
      have hall := selectScan_ok_none hscan
      by_cases hseq : pm.sequential = true
      · rw [selectPiece_seq hscan hseq] at h
        rcases selectScan_ok_some h with ⟨pre, post, hsplit, hpre, helig⟩
        have hprange : pre = List.range i := range_split hsplit
        refine ⟨helig, Or.inr ⟨hall, ?_, fun _ j hj => ?_⟩⟩
        · have : i ∈ List.range pm.numPieces := by
            rw [hsplit]
            exact List.mem_append_right _ (List.mem_cons_self _ _)
          simpa using this
        · exact hpre j (by rw [hprange]; simpa using hj)
      · have hseq' : pm.sequential = false := by simpa using hseq
        cases havail : availLoop (List.range pm.numPieces) pm ph with
        | error e =>
          rw [selectPiece_avail_error hscan hseq' havail] at h
          exact absurd h (by simp)
        | ok avail =>
          rw [selectPiece_rand hscan hseq' havail] at h
          simp only [Except.ok.injEq] at h
          unfold randomPick at h
          by_cases hl : avail.length = 0
          · rw [dif_pos hl] at h; exact absurd h (by simp)
          · rw [dif_neg hl] at h
            have hmem : i ∈ avail := by
              rw [← Option.some.injEq] at h
              cases h
              exact avail.get_mem _ _
            rcases availLoop_mem havail i hmem with ⟨hrange, helig⟩
            exact ⟨helig, Or.inr ⟨hall, by simpa using hrange,
              fun hs => absurd hs (by simp [hseq'])⟩⟩

/-- C6: whenever `select_piece` returns `Some i`, piece `i` is one the
peer's bitfield claims, is not yet complete in `have`, and is not
already in progress; if any priority piece is eligible the returned
piece is a priority piece; and if no priority piece is eligible and
sequential mode is on, no index below the returned one is eligible (the
returned piece is the lowest eligible index, below the piece count). -/
theorem C6_select_piece_sound :
    ∀ (pm : PieceManager) (ph : List Nat) (r i : Nat),
    selectPiece pm ph r = .ok (some i) →
    ((∃ hlt : i < pm.haveBv.length, pm.haveBv.get ⟨i, hlt⟩ = false) ∧
      peerHasPiece ph i = true ∧ hasKey pm.inProgress i = false) ∧
    ((∃ p ∈ pm.priorityPieces, eligAt pm ph p = some true) → i ∈ pm.priorityPieces) ∧
    ((¬ ∃ p ∈ pm.priorityPieces, eligAt pm ph p = some true) → pm.sequential = true →
      i < pm.numPieces ∧ ∀ j < i, eligAt pm ph j ≠ some true) := by
  intro pm ph r i h
  rcases selectPiece_ok_some_cases h with ⟨helig, hcase⟩
  rcases eligAt_true_elim helig with ⟨hlt, h1, h2, h3⟩
  refine ⟨⟨⟨hlt, h1⟩, h2, h3⟩, ?_, ?_⟩
  · intro hex
    rcases hcase with hmem | ⟨hall, _, _⟩
    · exact hmem
    · rcases hex with ⟨p, hp, he⟩
      rw [hall p hp] at he
      exact absurd he (by simp)
  · intro hnex hseq
    rcases hcase with hmem | ⟨hall, hbound, hlow⟩
    · exact absurd ⟨i, hmem, helig⟩ hnex
    · exact ⟨hbound, fun j hj he => by rw [hlow hseq j hj] at he; exact absurd he (by simp)⟩

/-- Witness for C6 at a concrete state: two pieces, priority set `[1]`,
a peer bitfield claiming both pieces; `select_piece` returns piece 1 and
the theorem yields its eligibility. -/
theorem C6_select_piece_sound_witness :
    peerHasPiece [192] 1 = true ∧ hasKey ([] : List (Nat × PieceInProgress)) 1 = false := by
  have h := C6_select_piece_sound
    { pieceHashes := [[], []], pieceLength := 1, totalSize := 2, numPieces := 2,
      haveBv := [false, false], inProgress := [], sequential := true, priorityPieces := [1] }
    [192] 0 1 rfl
  exact ⟨h.1.2.1, h.1.2.2⟩

/-- C8: with every priority index below the piece count (and the `have`
bitfield of that length, as `PieceManager::new` establishes),
`select_piece` never hits the unchecked `self.have[piece]` indexing out
of bounds and any returned index is below the piece count; moreover
`set_priority_pieces` stores any index list verbatim, enforcing no such
precondition, and `Engine::stream_torrent` installs the fixed list
`0..10` regardless of the torrent's piece count. -/
theorem C8_select_piece_bounds :
    (∀ (pm : PieceManager) (ph : List Nat) (r : Nat),
      pm.haveBv.length = pm.numPieces →
      (∀ p ∈ pm.priorityPieces, p < pm.numPieces) →
      (∃ res, selectPiece pm ph r = .ok res) ∧
      (∀ i, selectPiece pm ph r = .ok (some i) → i < pm.numPieces)) ∧
    (∀ (pm : PieceManager) (ps : List Nat), (setPriorityPieces pm ps).priorityPieces = ps) ∧
    streamTorrentPriorityPieces = List.range 10 := by
  refine ⟨?_, fun pm ps => rfl, rfl⟩
  intro pm ph r hlen hpri
  constructor
  · rcases @selectScan_total pm.priorityPieces pm ph
      (fun p hp => by rw [hlen]; exact hpri p hp) with ⟨res0, hres0⟩
    cases res0 with
    | some p => exact ⟨some p, selectPiece_scan_some hres0⟩
    | none =>
      by_cases hseq : pm.sequential
      · rcases @selectScan_total (List.range pm.numPieces) pm ph
          (fun p hp => by rw [hlen]; simpa using hp) with ⟨res1, hres1⟩
        exact ⟨res1, by rw [selectPiece_seq hres0 hseq]; exact hres1⟩
      · rcases @availLoop_total (List.range pm.numPieces) pm ph
          (fun p hp => by rw [hlen]; simpa using hp) with ⟨avail, hav⟩
        exact ⟨randomPick r avail,
          selectPiece_rand hres0 (by simpa using hseq) hav⟩
  · intro i hi
    rcases selectPiece_ok_some_cases hi with ⟨helig, hcase⟩
    rcases hcase with hmem | ⟨_, hbound, _⟩
    · exact hpri i hmem
    · exact hbound

/-- Witness for C8 at a concrete state: two pieces, priority `[0, 1]`
(all below the piece count), a peer claiming nothing — `select_piece`
evaluates without a panic and the parts about `set_priority_pieces` and
`stream_torrent` are instantiated. -/
theorem C8_select_piece_bounds_witness :
    (∃ res, selectPiece
      { pieceHashes := [[], []], pieceLength := 1, totalSize := 2, numPieces := 2,
        haveBv := [false, false], inProgress := [], sequential := false,
        priorityPieces := [0, 1] } [] 0 = .ok res) ∧
    (setPriorityPieces (PieceManager.new [] 1 0) [7, 99]).priorityPieces = [7, 99] := by
  have h := C8_select_piece_bounds
  exact ⟨(h.1
    { pieceHashes := [[], []], pieceLength := 1, totalSize := 2, numPieces := 2,
      haveBv := [false, false], inProgress := [], sequential := false,
      priorityPieces := [0, 1] } [] 0 rfl (by decide)).1,
    h.2.1 (PieceManager.new [] 1 0) [7, 99]⟩

end Piece

namespace Piece

/-- C10 (amended): `received_blocks` always equals the number of entries
of the offset→bytes block map (with distinct offsets), preserved by
`start_piece`, `receive_block` and `cancel_piece`; `receive_block`
leaves the state unchanged and returns `false` when the piece is not in
progress or the offset is already present; and for a fresh offset of an
in-progress piece it returns `true` exactly when the new distinct-block
count is at least `expected_blocks` — not only when it first reaches it:
offsets are not validated, so the count can exceed `expected_blocks`. -/
theorem C10_receive_block_invariant :
    (∀ (pm : PieceManager) (i : Nat), pmInv pm → pmInv (startPiece pm i).1) ∧
    (∀ (pm : PieceManager) (i o : Nat) (d : List Nat), pmInv pm →
      pmInv (receiveBlock pm i o d).1) ∧
    (∀ (pm : PieceManager) (i : Nat), pmInv pm → pmInv (cancelPiece pm i)) ∧
    (∀ (pm : PieceManager) (i o : Nat) (d : List Nat),
      hasKey pm.inProgress i = false → receiveBlock pm i o d = (pm, false)) ∧
    (∀ (pm : PieceManager) (i o : Nat) (d : List Nat) (prog : PieceInProgress),
      pm.inProgress.find? (fun e => e.1 = i) = some (i, prog) →
      prog.blocks.any (fun b => b.1 = o) = true → receiveBlock pm i o d = (pm, false)) ∧
    (∀ (pm : PieceManager) (i o : Nat) (d : List Nat) (prog : PieceInProgress),
      pm.inProgress.find? (fun e => e.1 = i) = some (i, prog) →
      prog.blocks.any (fun b => b.1 = o) = false →
      ((receiveBlock pm i o d).2 = true ↔ prog.expectedBlocks ≤ prog.receivedBlocks + 1)) := by
  refine ⟨?start, ?recv, ?cancel, ?nokey, ?occupied, ?fresh⟩
  case start =>
    intro pm i hinv e he
    simp only [startPiece, List.mem_append] at he
    rcases he with he | he
    · exact hinv e (List.mem_of_mem_filter he)
    · simp only [List.mem_singleton] at he
      subst he
      exact ⟨rfl, List.nodup_nil⟩
  case recv =>
    intro pm i o d hinv
    unfold receiveBlock
    split
    · exact hinv
    · rename_i k0 prog hfind
      split
      · exact hinv
      · rename_i hocc
        intro e he
        simp only [List.mem_map] at he
        rcases he with ⟨e1, he1, rfl⟩
        by_cases hk : e1.1 = i
        · rw [if_pos hk]
          have hmem : (k0, prog) ∈ pm.inProgress := List.mem_of_find?_eq_some hfind
          have hprog := hinv (k0, prog) hmem
          refine ⟨?_, ?_⟩
          · simp only [List.length_append, List.length_singleton]
            exact congrArg (· + 1) hprog.1
          · simp only [List.map_append, List.map_singleton]
            rw [List.nodup_append]
            refine ⟨hprog.2, List.nodup_singleton _, ?_⟩
            intro x hx
            simp only [List.mem_singleton]
            intro hxo
            rcases List.mem_map.mp hx with ⟨b, hb, hb1⟩
            have hany : prog.blocks.any (fun b => b.1 = o) = true :=
              List.any_eq_true.mpr ⟨b, hb, by simp [hb1, hxo]⟩
            simp [hany] at hocc
        · rw [if_neg hk]
          exact hinv e1 he1
  case cancel =>
    intro pm i hinv e he
    exact hinv e (List.mem_of_mem_filter he)
  case nokey =>
    intro pm i o d hnk
    have hfind : pm.inProgress.find? (fun e => e.1 = i) = none := by
      rw [List.find?_eq_none]
      intro e he
      simp only [hasKey, List.any_eq_false] at hnk
      simpa using hnk e he
    unfold receiveBlock
    split
    · rfl
    · rename_i k0 prog hfind2
      rw [hfind] at hfind2
      exact absurd hfind2 (by simp)
  case occupied =>
    intro pm i o d prog hfind hocc
    unfold receiveBlock
    split
    · rfl
    · rename_i k0 prog2 hfind2
      rw [hfind] at hfind2
      injection hfind2 with hpair
      injection hpair with hk hp
      subst hk
      subst hp
      rw [if_pos hocc]
  case fresh =>
    intro pm i o d prog hfind hocc
    unfold receiveBlock
    split
    · rename_i hfind2
      rw [hfind] at hfind2
      exact absurd hfind2 (by simp)
    · rename_i k0 prog2 hfind2
      rw [hfind] at hfind2
      injection hfind2 with hpair
      injection hpair with hk hp
      subst hk
      subst hp
      rw [if_neg (by simp [hocc])]
      simp

/-- Witness for C10 at concrete states: the invariant holds after
starting piece 0 of a fresh single-piece manager, `receive_block` on an
absent piece leaves the state unchanged, and a fresh first block of the
single-block piece reports completion. -/
theorem C10_receive_block_invariant_witness :
    pmInv (startPiece (PieceManager.new [List.replicate 20 0] 16384 16384) 0).1 ∧
    receiveBlock (PieceManager.new [List.replicate 20 0] 16384 16384) 0 0 []
      = (PieceManager.new [List.replicate 20 0] 16384 16384, false) ∧
    ((receiveBlock (startPiece (PieceManager.new [List.replicate 20 0] 16384 16384) 0).1
        0 0 []).2 = true ↔
      (⟨[], 1, 0⟩ : PieceInProgress).expectedBlocks
        ≤ (⟨[], 1, 0⟩ : PieceInProgress).receivedBlocks + 1) := by
  refine ⟨?_, ?_, ?_⟩
  · exact C10_receive_block_invariant.1 (PieceManager.new [List.replicate 20 0] 16384 16384) 0
      (by intro e he; simp [PieceManager.new] at he)
  · exact C10_receive_block_invariant.2.2.2.1 _ 0 0 [] rfl
  · exact C10_receive_block_invariant.2.2.2.2.2 _ 0 0 [] ⟨[], 1, 0⟩ rfl rfl

/-- Counterexample to C10 as stated: block offsets are not validated, so
after the single expected block of a 16384-byte piece has arrived, a
second block at an unexpected offset is still inserted and
`receive_block` returns `true` again — the distinct-block count is then
2 while `expected_blocks` is 1, so `true` is not returned only when the
count is raised exactly to `expected_blocks`. -/
theorem C10_counterexample_overshoot :
    ((receiveBlock (receiveBlock
        (startPiece (PieceManager.new [List.replicate 20 0] 16384 16384) 0).1
        0 0 []).1 0 1 []).2 = true) ∧
    (((receiveBlock (receiveBlock
        (startPiece (PieceManager.new [List.replicate 20 0] 16384 16384) 0).1
        0 0 []).1 0 1 []).1.inProgress.find? (fun e => e.1 = 0)).map
          (fun e => (e.2.receivedBlocks, e.2.blocks.length, e.2.expectedBlocks))
      = some (2, 2, 1)) := by
  exact ⟨rfl, rfl⟩

end Piece

namespace Peer

/-- Peer wire messages, mirroring `PeerMessage` in
`crates/engine/src/peer.rs` (`Have` is spelled `haveMsg` and `begin`
`begin_`, as Lean reserves those words). -/
inductive PeerMessage where
  | keepAlive
  | choke
  | unchoke
  | interested
  | notInterested
  | haveMsg (pieceIndex : Nat)
  | bitfield (bitfield : List Nat)
  | request (index begin_ length : Nat)
  | piece (index begin_ : Nat) (block : List Nat)
  | cancel (index begin_ length : Nat)
  | port (port : Nat)
deriving DecidableEq

/-- The four-boolean connection state (`PeerState`). -/
structure PeerState where
  amChoking : Bool
  amInterested : Bool
  peerChoking : Bool
  peerInterested : Bool
deriving DecidableEq

/-- `PeerState::default()`: `{am_choking: true, am_interested: false,
peer_choking: true, peer_interested: false}`. -/
def initialPeerState : PeerState := ⟨true, false, true, false⟩

/-- A peer connection (`PeerConnection`); the socket, address and rate
fields of the source are omitted — none of the embedded operations read
them. -/
structure PeerConnection where
  peerId : List Nat
  state : PeerState
  bitfield : List Nat
  bytesDownloaded : Nat
  bytesUploaded : Nat
deriving DecidableEq

/-- `self.bitfield[i] |= 1 << bit` on the byte list. -/
def orBit (l : List Nat) (i bit : Nat) : List Nat :=
  l.set i (l.getD i 0 ||| (1 <<< bit))

/-- `PeerConnection::handle_message`: update the connection state from a
received message; `Have` sets one bit, growing the bitfield with zero
bytes when the byte index is beyond its current length. -/
def handleMessage (c : PeerConnection) (msg : PeerMessage) : PeerConnection :=
  match msg with
  | .choke => { c with state := { c.state with peerChoking := true } }
  | .unchoke => { c with state := { c.state with peerChoking := false } }
  | .interested => { c with state := { c.state with peerInterested := true } }
  | .notInterested => { c with state := { c.state with peerInterested := false } }
  | .bitfield bf => { c with bitfield := bf }
  | .haveMsg pieceIndex =>
    let byteIdx := pieceIndex / 8
    let bitIdx := 7 - pieceIndex % 8
    if byteIdx < c.bitfield.length then
      { c with bitfield := orBit c.bitfield byteIdx bitIdx }
    else
      let grown := c.bitfield ++ List.replicate (byteIdx + 1 - c.bitfield.length) 0
      { c with bitfield := orBit grown byteIdx bitIdx }
  | _ => c

/-- `PeerConnection::has_piece`: MSB-first bit lookup, `false` beyond
the bitfield. -/
def hasPiece (c : PeerConnection) (pieceIdx : Nat) : Bool :=
  match c.bitfield[pieceIdx / 8]? with
  | some b => decide ((b >>> (7 - pieceIdx % 8)) &&& 1 = 1)
  | none => false

theorem bit_decide_eq (b k : Nat) : decide ((b >>> k) &&& 1 = 1) = b.testBit k := by
  rw [Nat.testBit_to_div_mod, Nat.shiftRight_eq_div_pow, Nat.and_one_is_mod]

theorem hasPiece_eq (c : PeerConnection) (j : Nat) :
    hasPiece c j = (c.bitfield.getD (j / 8) 0).testBit (7 - j % 8) := by
  unfold hasPiece
  cases hx : c.bitfield[j / 8]? with
  | none =>
    rw [List.getD_eq_getElem?_getD, hx]
    simp [Nat.zero_testBit]
  | some b =>
    rw [List.getD_eq_getElem?_getD, hx]
    simp [bit_decide_eq]

theorem getD_set_self {l : List Nat} {i : Nat} (v : Nat) (h : i < l.length) :
    (l.set i v).getD i 0 = v := by
  rw [List.getD_eq_getElem?_getD, List.getElem?_set_self (by omega)]
  simp

theorem getD_set_other {l : List Nat} {i j : Nat} (v : Nat) (h : i ≠ j) :
    (l.set i v).getD j 0 = l.getD j 0 := by
  rw [List.getD_eq_getElem?_getD, List.getElem?_set_ne h, ← List.getD_eq_getElem?_getD]

theorem getD_append_lt {l r : List Nat} {j : Nat} (h : j < l.length) :
    (l ++ r).getD j 0 = l.getD j 0 := by
  rw [List.getD_eq_getElem?_getD, List.getElem?_append, if_pos h, ← List.getD_eq_getElem?_getD]

theorem getD_replicate {n j : Nat} : (List.replicate n (0 : Nat)).getD j 0 = 0 := by
  rw [List.getD_eq_getElem?_getD]
  cases hx : (List.replicate n (0 : Nat))[j]? with
  | none => simp
  | some b =>
    have := List.getElem?_mem hx
    simp only [List.mem_replicate] at this
    simp [this.2]

theorem getD_append_ge {l r : List Nat} {j : Nat} (h : l.length ≤ j) :
    (l ++ r).getD j 0 = r.getD (j - l.length) 0 := by
  rw [List.getD_eq_getElem?_getD, List.getElem?_append_right h, ← List.getD_eq_getElem?_getD]

end Peer

namespace Peer

/-- Unfolding `handle_message` on a `Have` message. -/
theorem handleMessage_have (c : PeerConnection) (i : Nat) :
    handleMessage c (.haveMsg i) =
      (if i / 8 < c.bitfield.length then
        { c with bitfield := orBit c.bitfield (i / 8) (7 - i % 8) }
      else
        { c with bitfield := orBit (c.bitfield ++ List.replicate (i / 8 + 1 - c.bitfield.length) 0) (i / 8) (7 - i % 8) }) := rfl

theorem testBit_or_self (x k : Nat) : (x ||| (1 <<< k)).testBit k = true := by
  simp [Nat.testBit_or, Nat.one_shiftLeft, Nat.testBit_two_pow_self]

theorem testBit_or_other (x k k' : Nat) (h : k ≠ k') :
    (x ||| (1 <<< k)).testBit k' = x.testBit k' := by
  simp [Nat.testBit_or, Nat.one_shiftLeft, Nat.testBit_two_pow_of_ne h]

theorem getD_out {l : List Nat} {j : Nat} (h : l.length ≤ j) : l.getD j 0 = 0 := by
  rw [List.getD_eq_getElem?_getD, List.getElem?_eq_none h]
  rfl

/-- C9: handling `Have i` makes `has_piece i` true, leaves every other
bit of the stored bitfield unchanged (observing bits through
`has_piece`), changes no other field of the connection, and the
bitfield's byte length becomes `max (old length) (i/8 + 1)` — i.e. it is
extended with zero bytes exactly when byte `i/8` was beyond it.  No
bound on `i` against the torrent's piece count is required. -/
theorem C9_have_updates_only_bit :
    ∀ (c : PeerConnection) (i : Nat),
    hasPiece (handleMessage c (.haveMsg i)) i = true ∧
    (∀ j, j ≠ i → hasPiece (handleMessage c (.haveMsg i)) j = hasPiece c j) ∧
    (handleMessage c (.haveMsg i)).state = c.state ∧
    (handleMessage c (.haveMsg i)).peerId = c.peerId ∧
    (handleMessage c (.haveMsg i)).bytesDownloaded = c.bytesDownloaded ∧
    (handleMessage c (.haveMsg i)).bytesUploaded = c.bytesUploaded ∧
    (handleMessage c (.haveMsg i)).bitfield.length
      = max c.bitfield.length (i / 8 + 1) := by
  intro c i
  have hmsg := handleMessage_have c i
  by_cases hlt : i / 8 < c.bitfield.length
  · rw [if_pos hlt] at hmsg
    refine ⟨?_, ?_, by rw [hmsg], by rw [hmsg], by rw [hmsg], by rw [hmsg], ?_⟩
    · rw [hmsg, hasPiece_eq]
      simp only [orBit]
      rw [getD_set_self _ hlt]
      exact testBit_or_self _ _
    · intro j hj
      rw [hmsg, hasPiece_eq, hasPiece_eq]
      simp only [orBit]
      by_cases hb : j / 8 = i / 8
      · have hmod : j % 8 ≠ i % 8 := by omega
        have hk : (7 - i % 8) ≠ (7 - j % 8) := by omega
        rw [hb, getD_set_self _ hlt]
        exact testBit_or_other _ _ _ hk
      · rw [getD_set_other _ (Ne.symm hb)]
    · rw [hmsg]
      simp only [orBit, List.length_set]
      omega
  · rw [if_neg hlt] at hmsg
    have hge : c.bitfield.length ≤ i / 8 := by omega
    have hglen : (c.bitfield ++ List.replicate (i / 8 + 1 - c.bitfield.length) 0).length
        = i / 8 + 1 := by
      simp
      omega
    have hg0 : (c.bitfield ++ List.replicate (i / 8 + 1 - c.bitfield.length) 0).getD (i / 8) 0
        = 0 := by
      rw [getD_append_ge hge, getD_replicate]
    refine ⟨?_, ?_, by rw [hmsg], by rw [hmsg], by rw [hmsg], by rw [hmsg], ?_⟩
    · rw [hmsg, hasPiece_eq]
      simp only [orBit]
      rw [getD_set_self _ (by omega), hg0]
      exact testBit_or_self _ _
    · intro j hj
      rw [hmsg, hasPiece_eq, hasPiece_eq]
      simp only [orBit]
      by_cases hb : j / 8 = i / 8
      · have hmod : j % 8 ≠ i % 8 := by omega
        have hk : (7 - i % 8) ≠ (7 - j % 8) := by omega
        rw [hb, getD_set_self _ (by omega), hg0,
          testBit_or_other _ _ _ hk, getD_out (by omega)]
      · rw [getD_set_other _ (Ne.symm hb)]
        by_cases hjl : j / 8 < c.bitfield.length
        · rw [getD_append_lt hjl]
        · rw [getD_append_ge (by omega), getD_replicate, getD_out (by omega)]
    · rw [hmsg]
      simp only [orBit, List.length_set]
      rw [hglen]
      omega

end Peer

namespace Peer

/-- Witness for C9 at a concrete connection: an empty bitfield receiving
`Have 9` claims piece 9 and leaves (for example) piece 3 unclaimed. -/
theorem C9_have_updates_only_bit_witness :
    hasPiece (handleMessage ⟨[], initialPeerState, [], 0, 0⟩ (.haveMsg 9)) 9 = true ∧
    hasPiece (handleMessage ⟨[], initialPeerState, [], 0, 0⟩ (.haveMsg 9)) 3
      = hasPiece ⟨[], initialPeerState, [], 0, 0⟩ 3 := by
  have h := C9_have_updates_only_bit ⟨[], initialPeerState, [], 0, 0⟩ 9
  exact ⟨h.1, h.2.1 3 (by decide)⟩

end Peer

namespace Piece

/-- `PieceManager::mark_verified`. -/
def markVerified (pm : PieceManager) (pieceIdx : Nat) : PieceManager :=
  if pieceIdx < pm.numPieces then { pm with haveBv := pm.haveBv.set pieceIdx true } else pm

/-- `PieceManager::is_complete`: `count_ones == num_pieces`. -/
def isComplete (pm : PieceManager) : Bool :=
  decide (pm.haveBv.count true = pm.numPieces)

end Piece

namespace Session

/-- Session lifecycle states (`SessionState` in
`crates/engine/src/session.rs`). -/
inductive SessionState where
  | starting
  | downloading
  | seeding
  | paused
  | stopped
  | error
deriving DecidableEq

/-- The local state of one `run_peer_session` loop: the connection, the
request bookkeeping (`pending_requests`, `blocks_to_request`,
`current_piece`), the shared piece manager, the session state read at
the top of the iteration, and the shared byte counters. -/
structure LoopState where
  conn : Peer.PeerConnection
  pending : List Piece.BlockInfo
  toRequest : List Piece.BlockInfo
  currentPiece : Option Nat
  pm : Piece.PieceManager
  sessionState : SessionState
  downloaded : Nat
  uploaded : Nat
deriving DecidableEq

/-- What `conn.recv_timeout` produced this iteration: a message, a
timeout (the loop answers with a keep-alive), or a closed/failed stream
(the loop breaks). -/
inductive Recv where
  | rmsg (m : Peer.PeerMessage)
  | rtimeout
  | rclosed
deriving DecidableEq

/-- The environment of one loop iteration: the received message, the
random draw used by `select_piece`, the `read_data` outcome serving an
upload, the `verify_and_write_piece` outcome (`some true` hash match,
`some false` mismatch, `none` write error), and whether the
five-minute inactivity check fired. -/
structure StepEnv where
  recv : Recv
  r : Nat
  readData : Option (List Nat)
  verifyOk : Option Bool
  inactivityTimeout : Bool
deriving DecidableEq

/-- MAX_PENDING of `run_peer_session`. -/
def MAX_PENDING : Nat := 5

/-- The queue-filling `while` of the request phase: when the request
queue is empty, the pipeline has room and no piece is current, pick a
piece and start it (the loop body runs at most once to any effect; a
`None` pick or a current piece breaks it). -/
def fillPhase (s : LoopState) (r : Nat) : Except Piece.Panic LoopState :=
  if s.toRequest.isEmpty ∧ s.pending.length < MAX_PENDING ∧ s.currentPiece = none then
    match Piece.selectPiece s.pm s.conn.bitfield r with
    | .error e => .error e
    | .ok none => .ok s
    | .ok (some p) =>
      let res := Piece.startPiece s.pm p
      .ok { s with currentPiece := some p, pm := res.1, toRequest := s.toRequest ++ res.2 }
  else .ok s

/-- The request phase of one iteration: guarded by
`!conn.state.peer_choking && state == SessionState::Downloading`, fill
the queue, then emit `Request` messages until the pipeline holds
`MAX_PENDING` entries (sends are modelled as succeeding; a send error
only cuts the iteration short). -/
def requestPhase (s : LoopState) (r : Nat) :
    Except Piece.Panic (LoopState × List Peer.PeerMessage) :=
  if s.conn.state.peerChoking = false ∧ s.sessionState = .downloading then
    match fillPhase s r with
    | .error e => .error e
    | .ok s1 =>
      let k := min (MAX_PENDING - s1.pending.length) s1.toRequest.length
      let sent := s1.toRequest.take k
      .ok ({ s1 with toRequest := s1.toRequest.drop k, pending := s1.pending ++ sent },
        sent.map (fun b => Peer.PeerMessage.request b.piece b.offset b.length))
  else .ok (s, [])

/-- The receive-and-handle phase of one iteration: apply
`handle_message`, then the big `match msg` of `run_peer_session`
(`Choke` clears the pipeline and cancels the current piece; `Request`
serves an upload when seeding or the piece is held, indexing
`pieces.have[index]` without bounds check; `Piece` feeds the block into
the piece map and on completion verifies, marks and possibly flips the
session to Seeding). -/
def receivePhase (s : LoopState) (env : StepEnv) :
    Except Piece.Panic (LoopState × List Peer.PeerMessage) :=
  match env.recv with
  | .rtimeout => .ok (s, [Peer.PeerMessage.keepAlive])
  | .rclosed => .ok (s, [])
  | .rmsg m =>
    let s2 := { s with conn := Peer.handleMessage s.conn m }
    match m with
    | .choke =>
      let pm2 := match s2.currentPiece with
        | some p => Piece.cancelPiece s2.pm p
        | none => s2.pm
      .ok ({ s2 with pending := [], toRequest := [], currentPiece := none, pm := pm2 }, [])
    | .request idx beg lenr =>
      if s2.sessionState = .seeding then
        match env.readData with
        | some data => .ok ({ s2 with uploaded := s2.uploaded + lenr },
            [Peer.PeerMessage.piece idx beg data])
        | none => .ok (s2, [])
      else
        match s2.pm.haveBv[idx]? with
        | none => .error .outOfBounds
        | some hv =>
          if hv then
            match env.readData with
            | some data => .ok ({ s2 with uploaded := s2.uploaded + lenr },
                [Peer.PeerMessage.piece idx beg data])
            | none => .ok (s2, [])
          else .ok (s2, [])
    | .piece idx beg block =>
      let pend3 := s2.pending.filter (fun rq => !(rq.piece = idx && rq.offset = beg))
      let s3 := { s2 with downloaded := s2.downloaded + block.length, pending := pend3 }
      let res := Piece.receiveBlock s3.pm idx beg block
      if res.2 then
        match env.verifyOk with
        | some true =>
          let pm2 := Piece.markVerified (Piece.cancelPiece res.1 idx) idx
          if Piece.isComplete pm2 then
            .ok ({ s3 with pm := pm2, sessionState := .seeding, currentPiece := none }, [])
          else
            .ok ({ s3 with pm := pm2, currentPiece := none }, [])
        | some false =>
          .ok ({ s3 with pm := Piece.cancelPiece res.1 idx, currentPiece := none }, [])
        | none => .ok ({ s3 with pm := res.1, currentPiece := none }, [])
      else .ok ({ s3 with pm := res.1 }, [])
    | _ => .ok (s2, [])

/-- One iteration of `run_peer_session`'s `loop`: break at once when the
session was stopped or the inactivity check fired; otherwise run the
request phase and then receive and handle one message. -/
def peerStep (s : LoopState) (env : StepEnv) :
    Except Piece.Panic (LoopState × List Peer.PeerMessage) :=
  if s.sessionState = .stopped then .ok (s, [])
  else if env.inactivityTimeout then .ok (s, [])
  else
    match requestPhase s env.r with
    | .error e => .error e
    | .ok (s1, reqs) =>
      match receivePhase s1 env with
      | .error e => .error e
      | .ok (s2, extra) => .ok (s2, reqs ++ extra)

end Session

namespace Session

/-- The receive phase never emits a `Request` message: its only outputs
are a keep-alive on timeout and `Piece` payloads serving uploads. -/
theorem receivePhase_no_request (s : LoopState) (env : StepEnv) (s2 : LoopState)
    (extra : List Peer.PeerMessage) (h : receivePhase s env = .ok (s2, extra))
    (idx beg len : Nat) : Peer.PeerMessage.request idx beg len ∉ extra := by
  intro hmem
  obtain ⟨rv, r, rd, vo, ito⟩ := env
  cases rv with
  | rmsg m =>
    cases m <;>
      (simp only [receivePhase] at h
       repeat' split at h
       all_goals
         first
           | exact Except.noConfusion h
           | (simp only [Except.ok.injEq, Prod.mk.injEq] at h
              obtain ⟨h3, h4⟩ := h
              rw [← h4] at hmem
              simp at hmem))
  | rtimeout =>
    simp only [receivePhase, Except.ok.injEq, Prod.mk.injEq] at h
    obtain ⟨h3, h4⟩ := h
    rw [← h4] at hmem
    simp at hmem
  | rclosed =>
    simp only [receivePhase, Except.ok.injEq, Prod.mk.injEq] at h
    obtain ⟨h3, h4⟩ := h
    rw [← h4] at hmem
    exact List.not_mem_nil _ hmem

/-- C5: block requests are sent only while unchoked and downloading.
Any `Request` message emitted by an iteration of the
`run_peer_session` loop requires that, at the top of the iteration,
the peer was not choking us and the session state read under the lock
was `Downloading`; every other output of the iteration (keep-alives,
upload `Piece` payloads) is not a `Request`. -/
theorem C5_requests_only_when_unchoked_and_downloading
    (s : LoopState) (env : StepEnv) (s' : LoopState) (out : List Peer.PeerMessage)
    (hstep : peerStep s env = .ok (s', out))
    (idx beg len : Nat) (hmem : Peer.PeerMessage.request idx beg len ∈ out) :
    s.conn.state.peerChoking = false ∧ s.sessionState = SessionState.downloading := by
  by_cases hg : s.conn.state.peerChoking = false ∧ s.sessionState = SessionState.downloading
  · exact hg
  · exfalso
    unfold peerStep at hstep
    by_cases h1 : s.sessionState = SessionState.stopped
    · rw [if_pos h1] at hstep
      simp only [Except.ok.injEq, Prod.mk.injEq] at hstep
      obtain ⟨h3, h4⟩ := hstep
      rw [← h4] at hmem
      exact List.not_mem_nil _ hmem
    rw [if_neg h1] at hstep
    by_cases h2 : env.inactivityTimeout = true
    · rw [if_pos h2] at hstep
      simp only [Except.ok.injEq, Prod.mk.injEq] at hstep
      obtain ⟨h3, h4⟩ := hstep
      rw [← h4] at hmem
      exact List.not_mem_nil _ hmem
    rw [if_neg h2] at hstep
    have hreq : requestPhase s env.r = .ok (s, []) := by
      unfold requestPhase
      rw [if_neg hg]
    simp only [hreq] at hstep
    split at hstep
    · exact Except.noConfusion hstep
    · rename_i s2 extra heq
      simp only [List.nil_append, Except.ok.injEq, Prod.mk.injEq] at hstep
      obtain ⟨h5, h6⟩ := hstep
      rw [← h6] at hmem
      exact receivePhase_no_request s env s2 extra heq idx beg len hmem

end Session

namespace Session

/-- A single-piece manager for exercising the loop step. -/
def demoPm : Piece.PieceManager :=
  { pieceHashes := [[0]]
    pieceLength := 16384
    totalSize := 16384
    numPieces := 1
    haveBv := [false]
    inProgress := []
    sequential := true
    priorityPieces := [] }

/-- An unchoked connection whose peer holds piece 0. -/
def demoConn : Peer.PeerConnection :=
  { peerId := []
    state := { amChoking := true, amInterested := false,
               peerChoking := false, peerInterested := false }
    bitfield := [128]
    bytesDownloaded := 0
    bytesUploaded := 0 }

/-- A downloading loop state with an empty pipeline. -/
def demoState : LoopState :=
  { conn := demoConn
    pending := []
    toRequest := []
    currentPiece := none
    pm := demoPm
    sessionState := .downloading
    downloaded := 0
    uploaded := 0 }

/-- An iteration environment where the stream closes after the send. -/
def demoEnv : StepEnv :=
  { recv := .rclosed
    r := 0
    readData := none
    verifyOk := none
    inactivityTimeout := false }

/-- Witness for C5: on the concrete downloading state the step emits
`Request 0 0 16384`, and the theorem's conclusion holds there. -/
theorem C5_requests_only_when_unchoked_and_downloading_witness :
    demoState.conn.state.peerChoking = false ∧
    demoState.sessionState = SessionState.downloading :=
  C5_requests_only_when_unchoked_and_downloading demoState demoEnv
    { demoState with
        currentPiece := some 0
        pm := { demoPm with inProgress := [(0, ⟨[], 1, 0⟩)] }
        pending := [⟨0, 0, 16384⟩] }
    [Peer.PeerMessage.request 0 0 16384] (by rfl) 0 0 16384 (by decide)

end Session

namespace Tracker

/-- `TrackerEvent` of `crates/engine/src/tracker.rs`. -/
inductive TrackerEvent where
  | none
  | started
  | completed
  | stopped
deriving DecidableEq

/-- `TrackerEvent::as_u32` (the UDP announce wire encoding). -/
def TrackerEvent.as_u32 : TrackerEvent → Nat
  | .none => 0
  | .completed => 1
  | .started => 2
  | .stopped => 3

end Tracker

namespace Session

/-- The announce events `tracker_loop` emits, indexed by the session
state it reads at each 30-second tick: a paused tick announces nothing
and keeps `first` armed, any other tick announces `Started` the first
time and `None` afterwards, and leaving the loop announces `Stopped`. -/
def tickEvents : List SessionState → Bool → List Tracker.TrackerEvent
  | [], _ => [.stopped]
  | st :: rest, first =>
    if st = SessionState.paused then tickEvents rest first
    else (if first then Tracker.TrackerEvent.started else .none) :: tickEvents rest false

/-- Every announce event of a session's lifetime: the `tracker_loop`
ticks plus `n` `force_reannounce` calls (which announce `None`). -/
def sessionEvents (states : List SessionState) (n : Nat) : List Tracker.TrackerEvent :=
  tickEvents states true ++ List.replicate n Tracker.TrackerEvent.none

/-- No `tracker_loop` tick sequence ever announces `Completed`. -/
theorem tickEvents_count_completed : ∀ (sts : List SessionState) (first : Bool),
    (tickEvents sts first).count Tracker.TrackerEvent.completed = 0
  | [], _ => by unfold tickEvents; decide
  | st :: rest, first => by
    unfold tickEvents
    by_cases h : st = SessionState.paused
    · rw [if_pos h]
      exact tickEvents_count_completed rest first
    · rw [if_neg h, List.count_cons, tickEvents_count_completed rest false]
      cases first <;> decide

/-- A downloading state one block short of completion, with the peer
still choking us. -/
def completingState : LoopState :=
  { conn := { peerId := [], state := Peer.initialPeerState, bitfield := [128],
              bytesDownloaded := 0, bytesUploaded := 0 }
    pending := [⟨0, 0, 16384⟩]
    toRequest := []
    currentPiece := some 0
    pm := { demoPm with inProgress := [(0, ⟨[], 1, 0⟩)] }
    sessionState := .downloading
    downloaded := 0
    uploaded := 0 }

/-- An environment delivering the final block, which verifies. -/
def completingEnv : StepEnv :=
  { recv := .rmsg (.piece 0 0 [0])
    r := 0
    readData := none
    verifyOk := some true
    inactivityTimeout := false }

/-- C2: the claim says a session whose pieces all become Complete emits
exactly one `completed` announce.  In the code no announce site ever
constructs `TrackerEvent::Completed`: every lifetime announce stream
(tracker ticks under any state schedule plus any number of forced
reannounces) counts zero `completed` events, even though a peer-loop
iteration really can finish the last piece and flip the session to
Seeding — as the concrete completing step shows — announcing nothing. -/
theorem C2_no_completed_event :
    (∀ (states : List SessionState) (n : Nat),
      (sessionEvents states n).count Tracker.TrackerEvent.completed = 0) ∧
    (peerStep completingState completingEnv).map (fun p => p.1.sessionState)
      = Except.ok SessionState.seeding := by
  constructor
  · intro states n
    unfold sessionEvents
    rw [List.count_append, tickEvents_count_completed states true, List.count_replicate]
    simp
  · rfl

end Session

namespace Tracker

/-- The `TrackerError` variant `udp_connect` can surface on its own
(send errors are environment failures, modelled as absent replies). -/
inductive TrackerError where
  | timeout
deriving DecidableEq

/-- What one `timeout(_, socket.recv(..))` window yields: `none` for a
timeout, a receive error or a short datagram, `some (action,
transaction_id, connection_id)` for a full 16-byte reply. -/
abbrev Reply := Option (Nat × Nat × Nat)

/-- Whether a reply window would satisfy `udp_connect`'s acceptance
test for the given transaction id. -/
def validReply (tid : Nat) : Reply → Bool
  | none => false
  | some (action, rtid, _) => action = 0 && rtid = tid

/-- The `for attempt in 0..3` loop of `udp_connect`: each attempt
resends the same 16-byte request (same `tid`) with receive timeout
`5 * (1 << attempt)` seconds, accepts a reply with `action == 0` and a
matching transaction id, and otherwise continues; the sends performed
are returned alongside the outcome. -/
def udpConnectGo (tid : Nat) :
    List Nat → List Reply → List (Nat × Nat) × Except TrackerError Nat
  | [], _ => ([], .error .timeout)
  | attempt :: rest, replies =>
    let send := (tid, 5 * 2 ^ attempt)
    match replies.headD none with
    | some (action, rtid, connection_id) =>
      if action ≠ 0 ∨ rtid ≠ tid then
        let t := udpConnectGo tid rest replies.tail
        (send :: t.1, t.2)
      else ([send], .ok connection_id)
    | none =>
      let t := udpConnectGo tid rest replies.tail
      (send :: t.1, t.2)

/-- `udp_connect`: draw `transaction_id: u32 = rand::random()` once,
before the retry loop, then run the three attempts. -/
def udp_connect (rng : Nat → Nat) (replies : List Reply) :
    List (Nat × Nat) × Except TrackerError Nat :=
  let transaction_id := rng 0 % 2 ^ 32
  udpConnectGo transaction_id [0, 1, 2] replies

/-- When no window yields a valid reply, every attempt sends the same
transaction id with timeouts 5·2^attempt and the loop ends in
`Err(Timeout)`. -/
theorem udpConnectGo_all_invalid (tid : Nat) :
    ∀ (attempts : List Nat) (replies : List Reply),
    (∀ r ∈ replies, validReply tid r = false) →
    udpConnectGo tid attempts replies
      = (attempts.map (fun a => (tid, 5 * 2 ^ a)), .error .timeout)
  | [], _, _ => rfl
  | a :: rest, replies, h => by
    unfold udpConnectGo
    cases replies with
    | nil =>
      simp only [List.headD, List.tail]
      rw [udpConnectGo_all_invalid tid rest [] (by intro r hr; cases hr)]
      simp
    | cons r rs =>
      have hr := h r (List.mem_cons_self r rs)
      have hrs : ∀ x ∈ rs, validReply tid x = false :=
        fun x hx => h x (List.mem_cons_of_mem r hx)
      cases r with
      | none =>
        simp only [List.headD, List.tail]
        rw [udpConnectGo_all_invalid tid rest rs hrs]
        simp
      | some trip =>
        obtain ⟨action, rtid, cid⟩ := trip
        have hcond : action ≠ 0 ∨ rtid ≠ tid := by
          simp [validReply] at hr
          tauto
        simp only [List.headD, List.tail]
        rw [if_pos hcond, udpConnectGo_all_invalid tid rest rs hrs]
        simp

/-- C7 (amended): with no valid reply, `udp_connect` does retransmit
with doubled timeouts (5 s, 10 s, 20 s) and surfaces `Timeout` after
its 3 attempts, but every retransmission reuses the one transaction id
drawn before the loop — it is not fresh per retransmission. -/
theorem C7_udp_connect_retry (rng : Nat → Nat) (replies : List Reply)
    (h : ∀ r ∈ replies, validReply (rng 0 % 2 ^ 32) r = false) :
    udp_connect rng replies
      = ([(rng 0 % 2 ^ 32, 5), (rng 0 % 2 ^ 32, 10), (rng 0 % 2 ^ 32, 20)],
          .error .timeout) := by
  show udpConnectGo (rng 0 % 2 ^ 32) [0, 1, 2] replies = _
  rw [udpConnectGo_all_invalid (rng 0 % 2 ^ 32) [0, 1, 2] replies h]
  rfl

/-- Witness for C7 at a concrete draw and reply schedule: one timeout
window, then a reply with the wrong action. -/
theorem C7_udp_connect_retry_witness :
    udp_connect (fun _ => 7) [none, some (3, 7, 9)]
      = ([(7, 5), (7, 10), (7, 20)], .error .timeout) :=
  C7_udp_connect_retry (fun _ => 7) [none, some (3, 7, 9)] (by decide)

/-- Counterexample to the claim's freshness requirement: with a
generator whose successive draws would be 1, 2, 3, all three
retransmissions still carry transaction id 1 — the sent ids are not
pairwise distinct, so no retransmission uses a fresh id. -/
theorem C7_counterexample_reused_tid :
    udp_connect (fun n => n + 1) [none, none, none]
      = ([(1, 5), (1, 10), (1, 20)], .error .timeout) ∧
    ¬ List.Pairwise (fun p q : Nat × Nat => p.1 ≠ q.1)
        (udp_connect (fun n => n + 1) [none, none, none]).1 :=
  ⟨rfl, by decide⟩

end Tracker

namespace Stream

/-- `str::parse::<u64>` on pure digits: rejects empty input and values
over `u64::MAX`. -/
def parseU64Digits (s : List Char) : Option Nat :=
  if s.isEmpty then none
  else if s.all Char.isDigit then
    let v := s.foldl (fun acc c => acc * 10 + (c.toNat - 48)) 0
    if v < 2 ^ 64 then some v else none
  else none

/-- `str::parse::<u64>`: an optional leading plus sign, then digits. -/
def parseU64 : List Char → Option Nat
  | '+' :: rest => parseU64Digits rest
  | s => parseU64Digits s

/-- `split('-')` on the header tail, keeping empty pieces. -/
def splitDash : List Char → List (List Char)
  | [] => [[]]
  | c :: rest =>
    if c = '-' then [] :: splitDash rest
    else
      match splitDash rest with
      | p :: ps => (c :: p) :: ps
      | [] => [[c]]

/-- `parse_range` of `crates/engine/src/lib.rs`: strip `bytes=`, split
on the dash, read the two bounds (`start = file_size.saturating_sub(k)`
for an empty left part, `end = last_byte` for an empty right part),
reject `start > end || start >= file_size`, and clamp the end. -/
def parse_range (range_str : List Char) (file_size : Nat) : Option (Nat × Nat) :=
  if file_size = 0 then none
  else if ['b', 'y', 't', 'e', 's', '='].isPrefixOf range_str then
    match splitDash (range_str.drop 6) with
    | [p0, p1] =>
      let last_byte := file_size - 1
      let startO : Option Nat :=
        if p0.isEmpty then
          match parseU64 p1 with
          | some suffix => some (file_size - suffix)
          | none => none
        else parseU64 p0
      match startO with
      | none => none
      | some start =>
        let endO : Option Nat :=
          if p1.isEmpty then some last_byte else parseU64 p1
        match endO with
        | none => none
        | some stop =>
          if start > stop ∨ start ≥ file_size then none
          else some (start, min stop last_byte)
    | _ => none
  else none

/-- The visible shape of a `stream_handler` response: status code,
`Content-Length`, the `Content-Range` triple when present, and whether
`Accept-Ranges: bytes` is set. -/
structure StreamResponse where
  status : Nat
  contentLength : Nat
  contentRange : Option (Nat × Nat × Nat)
  acceptRanges : Bool
deriving DecidableEq

/-- The response logic of `stream_handler` for an existing file
(`avail` is `is_range_available` for the resolved range; reads of
available data are modelled as succeeding): an invalid or absent Range
header falls back to the whole file with status 200, a parsed range
gets 206 and a `Content-Range`, unavailable data gets 202. -/
def stream_handler (rangeHeader : Option (List Char)) (file_size : Nat)
    (avail : Bool) : StreamResponse :=
  if file_size = 0 then ⟨200, 0, none, false⟩
  else
    let range := rangeHeader.bind (fun s => parse_range s file_size)
    let se := range.getD (0, file_size - 1)
    let content_length := se.2 - se.1 + 1
    if avail = false then ⟨202, 0, none, false⟩
    else if range.isSome then ⟨206, content_length, some (se.1, se.2, file_size), true⟩
    else ⟨200, content_length, none, true⟩

/-- C4: the suffix form is not honoured.  For a 100-byte file,
`bytes=-10` must serve bytes [90, 99] with 206; `parse_range` instead
sets `end = 10` (the suffix length, not `last_byte`), so `start > end`
rejects the header and the handler streams the whole file with 200 —
exactly as it does with no Range header at all.  When the suffix is
at least half the file (`bytes=-60`) the bounds cross the other way
and a wrong range [40, 60] is served instead of [40, 99].  The
`a-b` and `a-` forms do work. -/
theorem C4_suffix_range_bug :
    parse_range ("bytes=-10").data 100 = none ∧
    stream_handler (some ("bytes=-10").data) 100 true = ⟨200, 100, none, true⟩ ∧
    stream_handler none 100 true = ⟨200, 100, none, true⟩ ∧
    parse_range ("bytes=-60").data 100 = some (40, 60) ∧
    parse_range ("bytes=0-49").data 100 = some (0, 49) ∧
    stream_handler (some ("bytes=0-49").data) 100 true
      = ⟨206, 50, some (0, 49, 100), true⟩ ∧
    parse_range ("bytes=90-").data 100 = some (90, 99) ∧
    stream_handler (some ("bytes=90-").data) 100 true
      = ⟨206, 10, some (90, 99, 100), true⟩ :=
  ⟨rfl, rfl, rfl, rfl, rfl, rfl, rfl, rfl⟩

end Stream
